import Mathlib

/-!
Verification development for the NewsRAG news-aggregation pipeline.

Shallow embedding of the clustering and highlight-ranking subsystem:
`SRC/pipeline/highlight_news.py`, `SRC/pipeline/duplicate_detection.py`,
`SRC/pipeline/zero_shot_topic_clustering.py`,
`SRC/pipeline/semantic_topic_grouping.py` and `SRC/utils/fetch_articles.py`.
Embeddings are lists of rationals; the MongoDB article collection is a list of
documents, with `find` embedded as an order-preserving filter and the
per-document `update_one`/`update_many` calls as list transformations.
-/

set_option allowUnsafeReducibility true

attribute [local semireducible] Rat.mul Rat.add Rat.sub Rat.inv

namespace NewsRAG

/-! ### String helpers: Python `str.lower` and the `in` substring test -/

/-- Lowercasing of a character sequence, embedding Python `str.lower` on the
ASCII fragment used by the highlight keyword phrases. -/
def toLowerStr (s : List Char) : List Char := s.map Char.toLower

/-- Test that the sequence `n` occurs at the very start of `h`. -/
def needleAt : List Char → List Char → Bool
  | [], _ => true
  | _ :: _, [] => false
  | a :: as, b :: bs => a == b && needleAt as bs

/-- Python's substring membership test `n in h`. -/
def strContains (n : List Char) : List Char → Bool
  | [] => needleAt n []
  | c :: t => needleAt n (c :: t) || strContains n t

/-! ### highlight_news.py -/

/-- The fixed phrase set `HIGHLIGHT_KEYWORDS` of `highlight_news.py`. -/
def HIGHLIGHT_KEYWORDS : List (List Char) :=
  ["breaking news".toList, "exclusive".toList, "just in".toList,
   "confirmed".toList, "revealed".toList]

/-- Embedding of `is_highlight_keyword_present`: some keyword phrase is a
substring of `text.lower()`. -/
def is_highlight_keyword_present (text : List Char) : Bool :=
  HIGHLIGHT_KEYWORDS.any (fun kw => strContains kw (toLowerStr text))

/-! ### Similarity engine -/

/-- Dot product of two embedding vectors (componentwise over the shared
length). -/
def dotQ : List ℚ → List ℚ → ℚ
  | [], _ => 0
  | _, [] => 0
  | a :: as, b :: bs => a * b + dotQ as bs

/-- Embedding of the strict test `cosine_similarity(u, v) > t` for a
nonnegative threshold `t`.  Cosine similarity is `dot u v / (‖u‖·‖v‖)`, so for
`0 ≤ t` the comparison holds iff the dot product is positive and its square
exceeds `t² · ‖u‖² · ‖v‖²`; phrasing it this way avoids irrational square
roots while agreeing exactly with the real-valued comparison.  sklearn maps an
all-zero vector to similarity `0`, which the `0 < dot` conjunct also
captures. -/
def simGtB (t : ℚ) (u v : List ℚ) : Bool :=
  decide (0 < dotQ u v) && decide (t ^ 2 * (dotQ u u * dotQ v v) < dotQ u v ^ 2)

/-! ### The Article document -/

/-- Article documents (spec §3), restricted to the fields the verified stages
read or write.  A `none` embedding models a document without an `embedding`
field. -/
structure Article where
  id : Nat
  title : List Char := []
  text : List Char := []
  predicted_topic : Option String := none
  embedding : Option (List ℚ) := none
  is_featured : Bool := false
  featured_at : Option Nat := none
  topic_cluster_id : Option Int := none
  duplicate_cluster_id : Option Nat := none

deriving instance DecidableEq for Article

instance : Inhabited Article := ⟨{ id := 0 }⟩

/-- Extraction of every article's embedding for a batch, failing — like the
Python subscript `doc["embedding"]`, a `KeyError` — when any is absent. -/
def getEmbeddings : List Article → Option (List (List ℚ))
  | [] => some []
  | a :: rest =>
    match a.embedding, getEmbeddings rest with
    | some e, some es => some (e :: es)
    | _, _ => none

/-! ### get_highlights -/

/-- Step 3 of `get_highlights`: row `i` of the boolean matrix
`sim_matrix > similarity_threshold`, summed — the number of batch columns
`j < n` (the diagonal `j = i` included, and its self-similarity is `1`) whose
similarity to article `i` exceeds the threshold. -/
def freqScore (embs : List (List ℚ)) (t : ℚ) (i : Nat) : Nat :=
  (List.range embs.length).countP
    (fun j => simGtB t (embs.getD i []) (embs.getD j []))

/-- Keyword boost of article `i`: +5 when `title + text` contains a highlight
phrase. -/
def keywordBoost (articles : List Article) (i : Nat) : Nat :=
  if is_highlight_keyword_present
      ((articles.getD i default).title ++ (articles.getD i default).text)
    then 5 else 0

/-- Steps 3–4 of `get_highlights`: the frequency score plus the +5 keyword
boost, indexed like the article list. -/
def compositeScores (articles : List Article) (embs : List (List ℚ)) (t : ℚ) :
    List Nat :=
  (List.range articles.length).map (fun i =>
    freqScore embs t i + keywordBoost articles i)

/-- Modelled from the spec's words, for comparison with `compositeScores`:
the count of OTHER same-category articles (`j ≠ i`) whose pairwise similarity
to article `i` exceeds the threshold, plus the keyword boost — the article
itself not counted. -/
def specCompositeScores (articles : List Article) (embs : List (List ℚ))
    (t : ℚ) : List Nat :=
  (List.range articles.length).map (fun i =>
    (List.range embs.length).countP
        (fun j => decide (j ≠ i) &&
          simGtB t (embs.getD i []) (embs.getD j [])) +
      keywordBoost articles i)

/-- Sort key comparison for `np.argsort` over a score list: compare scores,
breaking ties by original position, which makes all keys distinct. -/
def keyLtB (s : List Nat) (i j : Nat) : Bool :=
  decide (s.getD i 0 < s.getD j 0) ||
    (decide (s.getD i 0 = s.getD j 0) && decide (i < j))

/-- Ordered insertion of index `i` into an index list sorted by `keyLtB`. -/
def insertByKey (s : List Nat) (i : Nat) : List Nat → List Nat
  | [] => [i]
  | j :: rest =>
    if keyLtB s i j then i :: j :: rest else j :: insertByKey s i rest

/-- Stable ascending `np.argsort` of the scores: the indices `0, …, n-1`
sorted by score, with equal scores keeping their original relative order. -/
def argsortAsc (s : List Nat) : List Nat :=
  (List.range s.length).foldr (fun i acc => insertByKey s i acc) []

/-- Python slice `a[-k:]`: the last `k` elements — except that `k = 0`
(`a[-0:]` is `a[0:]`) yields the whole list. -/
def sliceLast (l : List Nat) (k : Nat) : List Nat :=
  if k = 0 then l else l.drop (l.length - k)

/-- Step 5 of `get_highlights`: `np.argsort(freq_scores)[-top_k:][::-1]`. -/
def topIndices (s : List Nat) (k : Nat) : List Nat :=
  (sliceLast (argsortAsc s) k).reverse

/-- Embedding of `get_highlights`: fetch the category's articles, score them
(similarity-frequency plus keyword boost), and return the articles at
`np.argsort(scores)[-top_k:][::-1]`.  The result is `none` when some article
of the category has no `embedding` field (Python raises `KeyError`). -/
def get_highlights (db : List Article) (category : String) (top_k : Nat := 5)
    (similarity_threshold : ℚ := 9/10) : Option (List Article) :=
  let articles := db.filter (fun a => a.predicted_topic == some category)
  if articles.isEmpty then some [] else
    match getEmbeddings articles with
    | none => none
    | some embs =>
      let scores := compositeScores articles embs similarity_threshold
      some ((topIndices scores top_k).map (fun i => articles.getD i default))

/-! ### update_featured_highlights -/

/-- Reset step of `update_featured_highlights`:
`update_many({predicted_topic: category}, {$set: {is_featured: false}})`. -/
def resetFeatured (db : List Article) (category : String) : List Article :=
  db.map (fun a =>
    if a.predicted_topic == some category then { a with is_featured := false }
    else a)

/-- Embedding of one `update_one({_id: docId}, {$set: {is_featured: true,
featured_at: now}})` call: set the fields on the first matching document. -/
def setFeaturedFirst (now : Nat) : List Article → Nat → List Article
  | [], _ => []
  | a :: rest, docId =>
    if a.id = docId then
      { a with is_featured := true, featured_at := some now } :: rest
    else a :: setFeaturedFirst now rest docId

/-- Persist step of `update_featured_highlights`: one `update_one` per
selected document id, in order. -/
def markFeatured (db : List Article) (ids : List Nat) (now : Nat) :
    List Article :=
  ids.foldl (fun d i => setFeaturedFirst now d i) db

/-- Embedding of `update_featured_highlights`: reset `is_featured` for every
article of the category, recompute the highlights, then mark each selected
document featured with the run timestamp `now`. -/
def update_featured_highlights (db : List Article) (category : String)
    (now : Nat) (top_k : Nat := 5) : Option (List Article) :=
  match get_highlights (resetFeatured db category) category top_k with
  | none => none
  | some highlights =>
    some (markFeatured (resetFeatured db category)
      (highlights.map (fun a => a.id)) now)

/-! ### fetch_articles.py -/

/-- Embedding of `fetch_articles_with_embeddings`:
`find({"embedding": {"$exists": true}})`. -/
def fetch_articles_with_embeddings (db : List Article) : List Article :=
  db.filter (fun a => a.embedding.isSome)

/-! ### zero_shot_topic_clustering.py

The external zero-shot classifier is a collaborator, modelled as a function
from the (truncated) input text to `some label`, or `none` when the
transformers pipeline call raises. -/

/-- Classifier input of the loop: `f"{title}\n{text}"[:2048]`. -/
def classifierInput (a : Article) : List Char :=
  (a.title ++ '\n' :: a.text).take 2048

/-- One `update_one({_id: docId}, {$set: {predicted_topic: topic}})` call:
set the field on the first matching document. -/
def setTopicFirst (topic : String) : List Article → Nat → List Article
  | [], _ => []
  | a :: rest, docId =>
    if a.id = docId then { a with predicted_topic := some topic } :: rest
    else a :: setTopicFirst topic rest docId

/-- Embedding of `update_article_topic`. -/
def update_article_topic (db : List Article) (articleId : Nat)
    (topic : String) : List Article :=
  setTopicFirst topic db articleId

/-- Loop of `zeroshot_topic_clustering` over the fetched batch.  The Python
code wraps the classifier call in no try/except, so a raised exception
propagates: the loop stops, later articles stay unclassified, and the
database keeps the writes made so far.  The Boolean records whether the run
ended in that exception. -/
def zeroshotLoop (classify : List Char → Option String) :
    List Article → List Article → List Article × Bool
  | db, [] => (db, false)
  | db, a :: rest =>
    match classify (classifierInput a) with
    | none => (db, true)
    | some topic =>
      zeroshotLoop classify (update_article_topic db a.id topic) rest

/-- Embedding of `zeroshot_topic_clustering`: fetch every article that has an
embedding and classify each in order, writing `predicted_topic` one document
at a time. -/
def zeroshot_topic_clustering (classify : List Char → Option String)
    (db : List Article) : List Article × Bool :=
  zeroshotLoop classify db (fetch_articles_with_embeddings db)

/-! ### semantic_topic_grouping.py -/

/-- One `update_one({_id: docId}, {$set: {topic_cluster_id: v}})` call. -/
def setTopicClusterFirst (v : Option Int) : List Article → Nat → List Article
  | [], _ => []
  | a :: rest, docId =>
    if a.id = docId then { a with topic_cluster_id := v } :: rest
    else a :: setTopicClusterFirst v rest docId

/-- Embedding of `update_articles_with_topic_clusters`: zip the batch with its
labels and update each document, storing `none` for the HDBSCAN noise
sentinel `-1` (`int(label) if label != -1 else None`) and the integer label
otherwise. -/
def update_articles_with_topic_clusters (db : List Article)
    (articles : List Article) (labels : List Int) : List Article :=
  (articles.zip labels).foldl
    (fun d al =>
      setTopicClusterFirst (if al.2 = -1 then none else some al.2) d al.1.id)
    db

/-! ### duplicate_detection.py

`perform_duplicate_clustering` computes the cosine-similarity matrix, turns
it into a distance matrix `1 - sim`, and hands it to sklearn's
`AgglomerativeClustering(n_clusters=None, metric="precomputed",
linkage="average", distance_threshold=1-threshold)`.  The estimator is
embedded as a greedy average-linkage merge loop: while the closest pair of
clusters is strictly below the cutoff, merge it (average linkage is
reducible, so cutting the dendrogram at the threshold and stopping the greedy
loop at the threshold agree); ties between equally close pairs are broken by
scanning pairs in index order, the deterministic index-based tie-break of the
library implementation. -/

/-- Average linkage: the mean of all pairwise distances between the two
clusters, given as lists of point indices. -/
def linkDist (d : Nat → Nat → ℚ) (A B : List Nat) : ℚ :=
  ((A.map (fun a => (B.map (fun b => d a b)).sum)).sum) /
    ((A.length : ℚ) * (B.length : ℚ))

/-- All index pairs `(i, j)` with `i < j < k`, in lexicographic order. -/
def pairsBelow (k : Nat) : List (Nat × Nat) :=
  (List.range k).flatMap (fun i =>
    ((List.range k).filter (fun j => i < j)).map (fun j => (i, j)))

/-- One step of the closest-pair scan: keep the best candidate so far,
replacing it only on a strictly smaller linkage distance (so ties keep the
earlier pair). -/
def minStep (d : Nat → Nat → ℚ) (cs : List (List Nat))
    (best : Option ((Nat × Nat) × ℚ)) (p : Nat × Nat) :
    Option ((Nat × Nat) × ℚ) :=
  match best with
  | none => some (p, linkDist d (cs.getD p.1 []) (cs.getD p.2 []))
  | some (q, w) =>
    if linkDist d (cs.getD p.1 []) (cs.getD p.2 []) < w
    then some (p, linkDist d (cs.getD p.1 []) (cs.getD p.2 []))
    else some (q, w)

/-- Closest pair of current clusters under average linkage, scanning the
pairs in index order and keeping the first minimum. -/
def minLinkPair (d : Nat → Nat → ℚ) (cs : List (List Nat)) :
    Option ((Nat × Nat) × ℚ) :=
  (pairsBelow cs.length).foldl (minStep d cs) none

/-- Merge of the clusters at positions `i < j`: remove both and append their
union as a fresh cluster at the end (fresh clusters get the next id, as in
the linkage encoding). -/
def mergeAt (cs : List (List Nat)) (i j : Nat) : List (List Nat) :=
  ((cs.eraseIdx j).eraseIdx i) ++ [cs.getD i [] ++ cs.getD j []]

/-- Greedy agglomerative loop: merge the closest pair while its linkage
distance is strictly below the cutoff.  Each merge reduces the cluster count,
so `n` steps of fuel suffice. -/
def agglomLoop (d : Nat → Nat → ℚ) (cutoff : ℚ) :
    Nat → List (List Nat) → List (List Nat)
  | 0, cs => cs
  | fuel + 1, cs =>
    match minLinkPair d cs with
    | none => cs
    | some (p, v) =>
      if v < cutoff then agglomLoop d cutoff fuel (mergeAt cs p.1 p.2) else cs

/-- Cluster label of point `i`: the position of the final cluster that
contains it. -/
def labelOf (cs : List (List Nat)) (i : Nat) : Nat :=
  cs.findIdx (fun c => c.contains i)

/-- Embedding of the `fit_predict` call on an `n × n` distance matrix `d`:
run the merge loop from singleton clusters and read one label per point. -/
def agglomerativeLabels (n : Nat) (d : Nat → Nat → ℚ) (cutoff : ℚ) :
    List Nat :=
  let final := agglomLoop d cutoff n ((List.range n).map (fun i => [i]))
  (List.range n).map (fun i => labelOf final i)

/-- Failure modes of `perform_duplicate_clustering`: a Python `KeyError` when
an article lacks the `embedding` field, and the sklearn estimator validation
`ValueError` for batches of fewer than two samples
(`ensure_min_samples=2`). -/
inductive DupError where
  | missingEmbedding : DupError
  | tooFewSamples : DupError

deriving instance DecidableEq for DupError

/-- Cosine-distance matrix entry `1 - sim` of `perform_duplicate_clustering`,
for unit-norm embeddings.  sklearn's `cosine_similarity` divides each row by
its norm and takes dot products; on batches of unit-norm vectors
(`dotQ e e = 1`) the division is the identity, so the similarity is exactly
the rational dot product.  The duplicate-clustering theorems below are stated
on such batches, where this model is exact. -/
def cosDistUnit (embs : List (List ℚ)) (i j : Nat) : ℚ :=
  1 - dotQ (embs.getD i []) (embs.getD j [])

/-- Embedding of `perform_duplicate_clustering`: extract the embeddings (a
`KeyError` when one is missing), validate the sample count, then run
average-linkage agglomerative clustering over the cosine-distance matrix with
cutoff `distance_threshold = 1 - threshold`. -/
def perform_duplicate_clustering (articles : List Article)
    (threshold : ℚ := 85/100) : Except DupError (List Nat) :=
  match getEmbeddings articles with
  | none => .error .missingEmbedding
  | some embs =>
    if embs.length < 2 then .error .tooFewSamples
    else
      .ok (agglomerativeLabels embs.length (cosDistUnit embs) (1 - threshold))

/-- Invariant of the agglomerative merge loop on a cleanly separated batch of
`n` points with group assignment `g`: every cluster is nonempty, in range and
group-pure, and every point lies in exactly one cluster. -/
def InvState (n : Nat) (g : Nat → Nat) (cs : List (List Nat)) : Prop :=
  (∀ cl ∈ cs, cl ≠ []) ∧
  (∀ cl ∈ cs, ∀ x ∈ cl, x < n) ∧
  (∀ cl ∈ cs, ∀ x ∈ cl, ∀ y ∈ cl, g x = g y) ∧
  (∀ x, x < n → cs.countP (fun cl => cl.contains x) = 1)

/-! ### Observation helpers -/

/-- Lookup of a document by `_id` (the first match, as `find_one` would). -/
def findArticle (db : List Article) (docId : Nat) : Option Article :=
  db.find? (fun a => a.id == docId)

/-- The id column of a database. -/
def articleIds (db : List Article) : List Nat := db.map (fun a => a.id)

/-- Fields of an article that highlight selection reads: everything except
the featured state that `update_featured_highlights` rewrites. -/
def coreOf (a : Article) :
    Nat × List Char × List Char × Option String × Option (List ℚ) ×
      Option Int × Option Nat :=
  (a.id, a.title, a.text, a.predicted_topic, a.embedding,
    a.topic_cluster_id, a.duplicate_cluster_id)

/-! ### Concrete articles used by counterexamples and witnesses -/

/-- Single "sports" article with a nonzero embedding and no keyword. -/
def x1Art : Article :=
  { id := 0, title := "plain title".toList,
    predicted_topic := some "sports", embedding := some [1] }

/-- Two "sports" articles with identical embeddings and equal scores. -/
def c4a : Article :=
  { id := 0, predicted_topic := some "sports", embedding := some [1] }

/-- Second of the two equal-score articles. -/
def c4b : Article :=
  { id := 1, predicted_topic := some "sports", embedding := some [1] }

/-- An article carrying a stale featured flag, for the recompute claims. -/
def w2a : Article :=
  { id := 0, predicted_topic := some "sports", embedding := some [1],
    is_featured := true, featured_at := some 1 }

/-- The same article without the stale flag. -/
def w2b : Article :=
  { id := 0, predicted_topic := some "sports", embedding := some [1] }

/-- First article of the zero-shot batch; the example classifier fails on
its input. -/
def z6a : Article := { id := 0, title := "a".toList, embedding := some [1] }

/-- Second article of the zero-shot batch; the example classifier would
label it. -/
def z6b : Article := { id := 1, title := "b".toList, embedding := some [1] }

/-- Example classifier collaborator: raises on the first article's text and
labels everything else "sports". -/
def z6Classify : List Char → Option String :=
  fun s => if s = classifierInput z6a then none else some "sports"

/-- Embedded article batch for the topic-cluster write witness. -/
def t7a : Article := { id := 10, embedding := some [1] }

/-- Second article of the topic-cluster write witness. -/
def t7b : Article := { id := 11, embedding := some [1] }

/-- Unit vector at angle 0 of the permutation counterexample. -/
def e8A : Article := { id := 0, embedding := some [1, 0] }

/-- Unit vector at angle θ with `cos θ = 15/17`: similarity `15/17 > 0.85`
to `e8A`. -/
def e8B : Article := { id := 1, embedding := some [15/17, 8/17] }

/-- Unit vector at angle 2θ: similarity `15/17` to `e8B` (a tie with the
`e8A`–`e8B` pair) but only `161/289 < 0.85` to `e8A`. -/
def e8C : Article := { id := 2, embedding := some [161/289, 240/289] }

/-- Single embedded article for the one-article clustering batch. -/
def n9Art : Article := { id := 5, embedding := some [1, 0] }

/-- First member of the cleanly separated witness batch (group 0). -/
def w8a : Article := { id := 20, embedding := some [1, 0] }

/-- Second member of the cleanly separated witness batch (group 0,
identical to the first). -/
def w8b : Article := { id := 21, embedding := some [1, 0] }

/-- Third member of the cleanly separated witness batch (group 1,
orthogonal to the others). -/
def w8c : Article := { id := 22, embedding := some [0, 1] }

/-- Article of a category that carries no `embedding` field. -/
def m10Art : Article := { id := 7, predicted_topic := some "sports" }

/-! ## Substring lemmas -/

theorem needleAt_append_self (n y : List Char) : needleAt n (n ++ y) = true := by
  induction n with
  | nil => rfl
  | cons c t ih => simp [needleAt, ih]

theorem strContains_nil_needle (h : List Char) : strContains [] h = true := by
  cases h <;> simp [strContains, needleAt]

theorem strContains_here (n y : List Char) : strContains n (n ++ y) = true := by
  cases n with
  | nil => simpa using strContains_nil_needle y
  | cons c t =>
    have hn : needleAt (c :: t) (c :: (t ++ y)) = true := by
      simp [needleAt, needleAt_append_self]
    simp [strContains, hn]

theorem strContains_middle (n x y : List Char) :
    strContains n (x ++ n ++ y) = true := by
  induction x with
  | nil => simpa using strContains_here n y
  | cons c t ih => simp [strContains]; right; simpa using ih

/-! ## C3 — the "BREAKING" keyword scenario -/

/-- C3 counterexample: the title "BREAKING: Fed cuts rates" contains the
string "BREAKING", yet `is_highlight_keyword_present` rejects its
title + text — the phrase set holds "breaking news", not "breaking", so the
case-insensitive match fails and no +5 boost is applied. -/
theorem C3_counterexample :
    strContains "BREAKING".toList "BREAKING: Fed cuts rates".toList = true ∧
    is_highlight_keyword_present
      ("BREAKING: Fed cuts rates".toList ++ ([] : List Char)) = false := by
  exact ⟨by decide, by decide⟩

/-- C3 (amended): the +5 keyword boost fires for the fixed phrase set, not
for the bare word "BREAKING": whenever a letter-case variant `w` of one of
the five phrases ("breaking news", "exclusive", "just in", "confirmed",
"revealed") occurs as a substring of `title + text`, the case-insensitive
match of `is_highlight_keyword_present` succeeds — so "BREAKING NEWS: …"
earns the boost, while a title containing "BREAKING" without "news", as in
the counterexample, does not. -/
theorem C3_amended (kw : List Char) (hkw : kw ∈ HIGHLIGHT_KEYWORDS)
    (u w v : List Char) (hw : toLowerStr w = kw) :
    is_highlight_keyword_present (u ++ w ++ v) = true := by
  have hc : strContains kw (toLowerStr (u ++ w ++ v)) = true := by
    have : toLowerStr (u ++ w ++ v) = toLowerStr u ++ kw ++ toLowerStr v := by
      simp [toLowerStr, hw.symm]
    rw [this]
    exact strContains_middle kw (toLowerStr u) (toLowerStr v)
  have : ∃ kw2 ∈ HIGHLIGHT_KEYWORDS,
      strContains kw2 (toLowerStr (u ++ w ++ v)) = true := ⟨kw, hkw, hc⟩
  simpa [is_highlight_keyword_present, List.any_eq_true] using this

/-- Witness for the amended C3 at a concrete uppercase phrase. -/
theorem C3_amended_witness :
    is_highlight_keyword_present
      (("" : String).toList ++ "BREAKING NEWS".toList ++ ": Fed".toList)
      = true :=
  C3_amended "breaking news".toList (by decide) ("" : String).toList
    "BREAKING NEWS".toList ": Fed".toList (by decide)

/-! ## C9 — single-article clustering batch -/

/-- C9 counterexample: the one-article batch is rejected by the estimator's
minimum-sample validation; it neither succeeds nor yields the label list
`[0]`. -/
theorem C9_counterexample :
    perform_duplicate_clustering [n9Art] (85/100) = .error .tooFewSamples ∧
    perform_duplicate_clustering [n9Art] (85/100) ≠ .ok [0] := by
  refine ⟨rfl, ?_⟩
  intro h
  rw [show perform_duplicate_clustering [n9Art] (85/100)
      = .error .tooFewSamples from rfl] at h
  exact Except.noConfusion h

/-- C9 (amended): duplicate clustering on a batch containing exactly one
article does not return a single cluster with label 0 — sklearn's estimator
validation (`ensure_min_samples=2`) raises a `ValueError` for one sample, so
the call fails with the minimum-sample input error. -/
theorem C9_amended (a : Article) (e : List ℚ) (t : ℚ)
    (he : a.embedding = some e) :
    perform_duplicate_clustering [a] t = .error .tooFewSamples := by
  simp [perform_duplicate_clustering, getEmbeddings, he]

/-- Witness for the amended C9 at a concrete embedded article. -/
theorem C9_amended_witness :
    perform_duplicate_clustering [n9Art] (1/2) = .error .tooFewSamples :=
  C9_amended n9Art [1, 0] (1/2) rfl

/-! ## C10 — articles without an embedding -/

/-- An article list with an embedding-less member yields no embedding
batch (the Python subscript raises `KeyError`). -/
theorem getEmbeddings_eq_none (l : List Article) (a : Article) (ha : a ∈ l)
    (hnone : a.embedding = none) : getEmbeddings l = none := by
  induction l with
  | nil => cases ha
  | cons b rest ih =>
    rcases List.mem_cons.mp ha with h | h
    · subst h
      show (match a.embedding, getEmbeddings rest with
        | some e, some es => some (e :: es)
        | _, _ => none) = none
      rw [hnone]
    · show (match b.embedding, getEmbeddings rest with
        | some e, some es => some (e :: es)
        | _, _ => none) = none
      rw [ih h]
      rcases b.embedding with _ | e <;> rfl

/-- C10 counterexample: `get_highlights` does not filter its category fetch
by embedding presence; on a category containing an article without an
`embedding` field it reads the missing field and fails (`KeyError`), rather
than skipping the article. -/
theorem C10_counterexample :
    m10Art.embedding = none ∧
    get_highlights [m10Art] "sports" 5 (9/10) = none := by
  exact ⟨rfl, by decide⟩

/-- C10 (amended): the clustering stages do exclude embedding-less articles —
their batches come from `fetch_articles_with_embeddings`, whose every result
has an embedding — but the highlight ranker selects on `predicted_topic`
alone and reads every selected article's embedding, so it fails (the
`KeyError` case, modelled as `none`) whenever an article of the category
lacks one. -/
theorem C10_amended :
    (∀ db a, a ∈ fetch_articles_with_embeddings db →
      a.embedding.isSome = true) ∧
    (∀ db cat k t,
      (∃ a, a ∈ db ∧ a.predicted_topic = some cat ∧ a.embedding = none) →
      get_highlights db cat k t = none) := by
  constructor
  · intro db a ha
    exact (List.mem_filter.mp ha).2
  · intro db cat k t ⟨a, hmem, htopic, hemb⟩
    have hafil : a ∈ db.filter (fun b => b.predicted_topic == some cat) :=
      List.mem_filter.mpr ⟨hmem, by simp [htopic]⟩
    have hne : (db.filter (fun b => b.predicted_topic == some cat)).isEmpty
        = false := by
      rcases h : db.filter (fun b => b.predicted_topic == some cat) with
        _ | ⟨c, cs⟩
      · rw [h] at hafil; cases hafil
      · rw [h]; rfl
    have hge : getEmbeddings
        (db.filter (fun b => b.predicted_topic == some cat)) = none :=
      getEmbeddings_eq_none _ a hafil hemb
    simp [get_highlights, hne, hge]

/-- Witness for the amended C10 on a one-article category without an
embedding. -/
theorem C10_amended_witness :
    get_highlights [m10Art] "sports" 3 (1/2) = none :=
  C10_amended.2 [m10Art] "sports" 3 (1/2)
    ⟨m10Art, by simp, rfl, rfl⟩

/-! ## C1 — the composite score counts the article itself -/

/-- Self-similarity exceeds any threshold below 1: the diagonal of the
similarity matrix passes the `> t` test whenever the embedding is nonzero. -/
theorem simGtB_self (t : ℚ) (e : List ℚ) (ht0 : 0 ≤ t) (ht1 : t < 1)
    (he : 0 < dotQ e e) : simGtB t e e = true := by
  simp only [simGtB, Bool.and_eq_true, decide_eq_true_eq]
  refine ⟨he, ?_⟩
  have h1 : t ^ 2 < 1 := by nlinarith
  calc t ^ 2 * (dotQ e e * dotQ e e)
      < 1 * (dotQ e e * dotQ e e) :=
        mul_lt_mul_of_pos_right h1 (by positivity)
    _ = dotQ e e ^ 2 := by ring

/-- Counting over a duplicate-free index list splits off one index that the
predicate accepts. -/
theorem countP_remove_one (p : Nat → Bool) (l : List Nat) (i : Nat)
    (hnd : l.Nodup) (hmem : i ∈ l) (hp : p i = true) :
    l.countP p = l.countP (fun j => decide (j ≠ i) && p j) + 1 := by
  induction l with
  | nil => cases hmem
  | cons a t ih =>
    rw [List.countP_cons, List.countP_cons]
    rcases List.mem_cons.mp hmem with rfl | hmt
    · have hit : i ∉ t := (List.nodup_cons.mp hnd).1
      have hcong : t.countP (fun j => decide (j ≠ i) && p j) = t.countP p :=
        List.countP_congr (fun x hx => by
          have hxi : x ≠ i := fun h => hit (h ▸ hx)
          simp [hxi])
      have h1 : (if p i = true then 1 else 0) = 1 := by simp [hp]
      have h2 : (if (decide (i ≠ i) && p i) = true then 1 else 0) = 0 := by
        simp
      rw [h1, h2, hcong]
    · have hcons := List.nodup_cons.mp hnd
      have hai : a ≠ i := fun h => hcons.1 (h ▸ hmt)
      rw [ih hcons.2 hmt]
      cases hpa : p a <;> simp [hpa, hai]

/-- C1 counterexample: in a one-article category, the code's composite score
is 1 — the row sum `(sim_matrix > threshold).sum(axis=1)` counts the article
itself, whose self-similarity 1 exceeds the 0.9 threshold — while the spec's
"count of other same-category articles" plus boost is 0. -/
theorem C1_counterexample :
    compositeScores [x1Art] [[1]] (9/10) = [1] ∧
    specCompositeScores [x1Art] [[1]] (9/10) = [0] :=
  ⟨by decide, by decide⟩

/-- C1 (amended): for every article whose embedding is nonzero, the composite
score equals the count of OTHER same-category articles above the similarity
threshold, PLUS ONE for the article itself (its self-similarity 1 always
exceeds the threshold, and the row sum does not exclude the diagonal), plus
the keyword boost. -/
theorem C1_amended (articles : List Article) (embs : List (List ℚ)) (t : ℚ)
    (i : Nat) (hia : i < articles.length) (hie : i < embs.length)
    (ht0 : 0 ≤ t) (ht1 : t < 1)
    (he : 0 < dotQ (embs.getD i []) (embs.getD i [])) :
    (compositeScores articles embs t).getD i 0
      = (specCompositeScores articles embs t).getD i 0 + 1 := by
  have hself : simGtB t (embs.getD i []) (embs.getD i []) = true :=
    simGtB_self t _ ht0 ht1 he
  have hcount := countP_remove_one
    (fun j => simGtB t (embs.getD i []) (embs.getD j []))
    (List.range embs.length) i (List.nodup_range _)
    (List.mem_range.mpr hie) hself
  have hc : (compositeScores articles embs t).getD i 0
      = freqScore embs t i + keywordBoost articles i := by
    rw [compositeScores, List.getD_eq_getElem?_getD, List.getElem?_map,
      List.getElem?_range hia]
    rfl
  have hs : (specCompositeScores articles embs t).getD i 0
      = (List.range embs.length).countP
          (fun j => decide (j ≠ i) &&
            simGtB t (embs.getD i []) (embs.getD j [])) +
        keywordBoost articles i := by
    rw [specCompositeScores, List.getD_eq_getElem?_getD, List.getElem?_map,
      List.getElem?_range hia]
    rfl
  have hcount2 : (List.range embs.length).countP
      (fun j => simGtB t (embs.getD i []) (embs.getD j []))
      = (List.range embs.length).countP
          (fun j => decide (j ≠ i) &&
            simGtB t (embs.getD i []) (embs.getD j [])) + 1 := hcount
  rw [hc, hs, freqScore, hcount2]
  omega

/-- Witness for the amended C1 on the one-article category. -/
theorem C1_amended_witness :
    (compositeScores [x1Art] [[1]] (9/10)).getD 0 0
      = (specCompositeScores [x1Art] [[1]] (9/10)).getD 0 0 + 1 :=
  C1_amended [x1Art] [[1]] (9/10) 0 (by decide) (by decide) (by decide)
    (by decide) (by decide)

/-! ## C7 — noise sentinel is stored as a nullable cluster id -/

/-- Updating the topic cluster of a document rewrites the first record with
that id and nothing else, so lookup of that id sees the new value. -/
theorem findArticle_setTopicClusterFirst_self (v : Option Int)
    (db : List Article) (docId : Nat) :
    findArticle (setTopicClusterFirst v db docId) docId
      = (findArticle db docId).map
          (fun a => { a with topic_cluster_id := v }) := by
  induction db with
  | nil => rfl
  | cons b rest ih =>
    by_cases h : b.id = docId
    · simp [setTopicClusterFirst, findArticle, h]
    · simp only [setTopicClusterFirst, if_neg h]
      rw [findArticle, List.find?_cons_of_neg _ (by simpa using h),
        findArticle, List.find?_cons_of_neg _ (by simpa using h)]
      exact ih

/-- Updating one document's topic cluster leaves lookups of other ids
unchanged. -/
theorem findArticle_setTopicClusterFirst_other (v : Option Int)
    (db : List Article) (docId otherId : Nat) (hne : docId ≠ otherId) :
    findArticle (setTopicClusterFirst v db docId) otherId
      = findArticle db otherId := by
  induction db with
  | nil => rfl
  | cons b rest ih =>
    by_cases h : b.id = docId
    · have hbo : ¬ b.id = otherId := by rw [h]; exact hne
      simp only [setTopicClusterFirst, if_pos h]
      rw [findArticle, List.find?_cons_of_neg _ (by simpa using hbo),
        findArticle, List.find?_cons_of_neg _ (by simpa using hbo)]
    · simp only [setTopicClusterFirst, if_neg h]
      by_cases hbo : b.id = otherId
      · rw [findArticle, List.find?_cons_of_pos _ (by simpa using hbo),
          findArticle, List.find?_cons_of_pos _ (by simpa using hbo)]
      · rw [findArticle, List.find?_cons_of_neg _ (by simpa using hbo),
          findArticle, List.find?_cons_of_neg _ (by simpa using hbo)]
        exact ih

/-- The per-document cluster updates do not touch documents whose id is not
in the batch. -/
theorem find_update_clusters_untouched (ps : List (Article × Int))
    (db : List Article) (targetId : Nat)
    (h : ∀ p ∈ ps, p.1.id ≠ targetId) :
    findArticle
      (ps.foldl (fun d al =>
        setTopicClusterFirst (if al.2 = -1 then none else some al.2) d al.1.id)
        db) targetId
      = findArticle db targetId := by
  induction ps generalizing db with
  | nil => rfl
  | cons p rest ih =>
    rw [List.foldl_cons, ih _ (fun q hq => h q (List.mem_cons_of_mem p hq))]
    exact findArticle_setTopicClusterFirst_other _ db _ _
      (h p (List.mem_cons_self p rest))

/-- The cluster update preserves the id column. -/
theorem articleIds_setTopicClusterFirst (v : Option Int) (db : List Article)
    (docId : Nat) :
    articleIds (setTopicClusterFirst v db docId) = articleIds db := by
  induction db with
  | nil => rfl
  | cons b rest ih =>
    by_cases h : b.id = docId
    · simp [setTopicClusterFirst, articleIds, h]
    · simp only [setTopicClusterFirst, if_neg h]
      simpa [articleIds] using ih

/-- C7 (confirmed): for every article of the batch, the stored
`topic_cluster_id` is `none` exactly when the density clustering labeled it
noise (`-1`), and otherwise equals the non-negative cluster id; the `-1`
sentinel itself is never written. -/
theorem C7_noise_mapping (db arts : List Article) (labels : List Int)
    (i : Nat) (hia : i < arts.length) (hil : i < labels.length)
    (hnd : (arts.map (fun a => a.id)).Nodup)
    (hsent : -1 ≤ labels[i])
    (hmem : arts[i].id ∈ articleIds db) :
    ∃ a2,
      findArticle (update_articles_with_topic_clusters db arts labels)
        arts[i].id = some a2 ∧
      (a2.topic_cluster_id = none ↔ labels[i] = -1) ∧
      (∀ m : Int, a2.topic_cluster_id = some m → m = labels[i] ∧ 0 ≤ m) := by
  induction arts generalizing labels db i with
  | nil => exact absurd hia (by simp)
  | cons a arts ih =>
    rcases labels with _ | ⟨l, labels⟩
    · exact absurd hil (by simp)
    rcases i with _ | i
    · -- the head article: its own write is the last one that touches its id
      have hnotin : ∀ p ∈ arts.zip labels, p.1.id ≠ a.id := by
        intro p hp heq
        have hfst : p.1 ∈ arts := (List.of_mem_zip hp).1
        have : a.id ∈ arts.map (fun a => a.id) :=
          heq ▸ List.mem_map_of_mem (fun a => a.id) hfst
        exact (List.nodup_cons.mp hnd).1 this
      have hsome : (findArticle db a.id).isSome := by
        rw [findArticle, List.find?_isSome]
        rcases List.mem_map.mp hmem with ⟨b, hb, hbid⟩
        exact ⟨b, hb, by simp at hbid ⊢; simpa using hbid⟩
      rcases hfind : findArticle db a.id with _ | a0
      · rw [hfind] at hsome; cases hsome
      simp only [List.getElem_cons_zero] at hsent ⊢
      refine ⟨{ a0 with topic_cluster_id :=
          if l = -1 then none else some l }, ?_, ?_, ?_⟩
      · rw [update_articles_with_topic_clusters]
        simp only [List.zip_cons_cons, List.foldl_cons]
        rw [find_update_clusters_untouched _ _ _ hnotin]
        rw [findArticle_setTopicClusterFirst_self, hfind]
        rfl
      · by_cases hl : l = -1 <;> simp [hl]
      · intro m hm
        by_cases hl : l = -1 <;> simp [hl] at hm
        have : (0 : Int) ≤ l := by omega
        exact ⟨hm.symm, hm ▸ this⟩
    · -- later article: step past the head's write
      have hmem2 : (a :: arts)[i + 1].id ∈ articleIds
          (setTopicClusterFirst (if l = -1 then none else some l) db a.id) :=
        by rwa [articleIds_setTopicClusterFirst]
      have hres := ih
        (setTopicClusterFirst (if l = -1 then none else some l) db a.id)
        labels i (by simpa using hia) (by simpa using hil)
        (by simpa using (List.nodup_cons.mp hnd).2)
        (by simpa using hsent) (by simpa using hmem2)
      rw [update_articles_with_topic_clusters] at hres ⊢
      simp only [List.zip_cons_cons, List.foldl_cons]
      simpa using hres

/-- Witness for C7 on a two-article batch with one noise label and one
cluster label. -/
theorem C7_noise_mapping_witness :
    ∃ a2,
      findArticle (update_articles_with_topic_clusters [t7a, t7b]
        [t7a, t7b] [-1, 3]) 11 = some a2 ∧
      (a2.topic_cluster_id = none ↔ (3 : Int) = -1) ∧
      (∀ m : Int, a2.topic_cluster_id = some m → m = 3 ∧ 0 ≤ m) :=
  C7_noise_mapping [t7a, t7b] [t7a, t7b] [-1, 3] 1 (by decide) (by decide)
    (by decide) (by decide) (by decide)

/-! ## C6 — a classification failure and the batch -/

/-- Writing one document's predicted topic rewrites the first record with
that id, so lookup of that id sees the new topic. -/
theorem findArticle_setTopicFirst_self (s : String) (db : List Article)
    (docId : Nat) :
    findArticle (setTopicFirst s db docId) docId
      = (findArticle db docId).map
          (fun a => { a with predicted_topic := some s }) := by
  induction db with
  | nil => rfl
  | cons b rest ih =>
    by_cases h : b.id = docId
    · simp [setTopicFirst, findArticle, h]
    · simp only [setTopicFirst, if_neg h]
      rw [findArticle, List.find?_cons_of_neg _ (by simpa using h),
        findArticle, List.find?_cons_of_neg _ (by simpa using h)]
      exact ih

/-- Writing one document's predicted topic leaves other ids unchanged. -/
theorem findArticle_setTopicFirst_other (s : String) (db : List Article)
    (docId otherId : Nat) (hne : docId ≠ otherId) :
    findArticle (setTopicFirst s db docId) otherId
      = findArticle db otherId := by
  induction db with
  | nil => rfl
  | cons b rest ih =>
    by_cases h : b.id = docId
    · have hbo : ¬ b.id = otherId := by rw [h]; exact hne
      simp only [setTopicFirst, if_pos h]
      rw [findArticle, List.find?_cons_of_neg _ (by simpa using hbo),
        findArticle, List.find?_cons_of_neg _ (by simpa using hbo)]
    · simp only [setTopicFirst, if_neg h]
      by_cases hbo : b.id = otherId
      · rw [findArticle, List.find?_cons_of_pos _ (by simpa using hbo),
          findArticle, List.find?_cons_of_pos _ (by simpa using hbo)]
      · rw [findArticle, List.find?_cons_of_neg _ (by simpa using hbo),
          findArticle, List.find?_cons_of_neg _ (by simpa using hbo)]
        exact ih

/-- Behaviour of the zero-shot loop when the classifier fails on the `k`-th
pending article and succeeds on the earlier ones: the raised exception ends
the run, articles whose id is not among the first `k` are untouched, and each
of the first `k` keeps its freshly written label. -/
theorem zeroshotLoop_abort (classify : List Char → Option String)
    (pending : List Article) (db : List Article) (k : Nat)
    (hk : k < pending.length)
    (hfail : classify (classifierInput pending[k]) = none)
    (hok : ∀ i (hi : i < k),
      ∃ s, classify (classifierInput pending[i]) = some s) :
    (zeroshotLoop classify db pending).2 = true ∧
    (∀ targetId, (∀ i (hi : i < k), pending[i].id ≠ targetId) →
      findArticle (zeroshotLoop classify db pending).1 targetId
        = findArticle db targetId) ∧
    (∀ i (hi : i < k),
      (∀ j (hj : j < k), j ≠ i → pending[j].id ≠ pending[i].id) →
      ∃ s, classify (classifierInput pending[i]) = some s ∧
        findArticle (zeroshotLoop classify db pending).1 pending[i].id
          = (findArticle db pending[i].id).map
              (fun a => { a with predicted_topic := some s })) := by
  induction pending generalizing k db with
  | nil => exact absurd hk (by simp)
  | cons a rest ih =>
    rcases k with _ | k
    · simp only [List.getElem_cons_zero] at hfail
      refine ⟨?_, ?_, fun i hi => absurd hi (by omega)⟩
      · simp [zeroshotLoop, hfail]
      · intro targetId _
        simp [zeroshotLoop, hfail]
    · obtain ⟨s0, hs0⟩ := hok 0 (Nat.succ_pos k)
      simp only [List.getElem_cons_zero] at hs0
      simp only [zeroshotLoop, hs0]
      have hkr : k < rest.length := by simpa using hk
      have hres := ih (update_article_topic db a.id s0) k hkr
        (by simpa using hfail)
        (fun i hi => by simpa using hok (i + 1) (by omega))
      refine ⟨hres.1, ?_, ?_⟩
      · intro targetId htarget
        have h0 : a.id ≠ targetId := by
          simpa using htarget 0 (by omega)
        rw [hres.2.1 targetId
          (fun i hi => by simpa using htarget (i + 1) (by omega))]
        exact findArticle_setTopicFirst_other s0 db a.id targetId h0
      · intro i hi hdist
        rcases i with _ | i
        · have huntouched : ∀ i' (hi' : i' < k), rest[i'].id ≠ a.id :=
            fun i' hi' => by
              simpa using hdist (i' + 1) (by omega) (by omega)
          refine ⟨s0, by simpa using hs0, ?_⟩
          simp only [List.getElem_cons_zero]
          rw [hres.2.1 a.id huntouched]
          exact findArticle_setTopicFirst_self s0 db a.id
        · have hdist2 : ∀ j (hj : j < k), j ≠ i → rest[j].id ≠ rest[i].id :=
            fun j hj hne => by
              simpa using hdist (j + 1) (by omega) (by omega)
          obtain ⟨s, hs, hfind⟩ := hres.2.2 i (by omega) hdist2
          refine ⟨s, by simpa using hs, ?_⟩
          have ha : a.id ≠ rest[i].id := by
            simpa using hdist 0 (by omega) (by omega)
          rw [update_article_topic] at hfind
          rw [findArticle_setTopicFirst_other s0 db a.id _ ha] at hfind
          simpa using hfind

/-- C6 counterexample: the zero-shot loop wraps the classifier call in no
try/except, so a failure on the first article raises out of the batch: the
run ends in the exception and the second article — which the classifier
would have labelled "sports" — is left unclassified. -/
theorem C6_counterexample :
    zeroshot_topic_clustering z6Classify [z6a, z6b] = ([z6a, z6b], true) ∧
    z6Classify (classifierInput z6b) = some "sports" ∧
    z6b.predicted_topic = none := by
  exact ⟨by decide, by decide, rfl⟩

/-- C6 (amended): a classification failure for one article ABORTS the batch
rather than being skipped: when the classifier fails on the `k`-th fetched
article (and succeeded on the earlier ones), the exception propagates (the
run's failure flag is set), the failing article and every later one retain
their previous `predicted_topic`, and the articles processed before the
failure keep their freshly written labels. -/
theorem C6_amended (classify : List Char → Option String)
    (db : List Article) (k : Nat)
    (hnd : (articleIds db).Nodup)
    (hk : k < (fetch_articles_with_embeddings db).length)
    (hfail : classify
      (classifierInput (fetch_articles_with_embeddings db)[k]) = none)
    (hok : ∀ i (hi : i < k), ∃ s, classify
      (classifierInput (fetch_articles_with_embeddings db)[i]) = some s) :
    (zeroshot_topic_clustering classify db).2 = true ∧
    (∀ j (hj : j < (fetch_articles_with_embeddings db).length), k ≤ j →
      findArticle (zeroshot_topic_clustering classify db).1
          (fetch_articles_with_embeddings db)[j].id
        = findArticle db (fetch_articles_with_embeddings db)[j].id) ∧
    (∀ i (hi : i < k),
      ∃ s, classify
          (classifierInput (fetch_articles_with_embeddings db)[i]) = some s ∧
        findArticle (zeroshot_topic_clustering classify db).1
            (fetch_articles_with_embeddings db)[i].id
          = (findArticle db (fetch_articles_with_embeddings db)[i].id).map
              (fun a => { a with predicted_topic := some s })) := by
  have hndf : ((fetch_articles_with_embeddings db).map
      (fun a => a.id)).Nodup := by
    refine List.Nodup.sublist ?_ hnd
    exact List.Sublist.map _ (List.filter_sublist db)
  have hids : ∀ i j (hi : i < (fetch_articles_with_embeddings db).length)
      (hj : j < (fetch_articles_with_embeddings db).length), i ≠ j →
      (fetch_articles_with_embeddings db)[i].id
        ≠ (fetch_articles_with_embeddings db)[j].id := by
    intro i j hi hj hne heq
    have hlen : i < ((fetch_articles_with_embeddings db).map
        (fun a => a.id)).length := by simpa using hi
    have hlen2 : j < ((fetch_articles_with_embeddings db).map
        (fun a => a.id)).length := by simpa using hj
    have : ((fetch_articles_with_embeddings db).map (fun a => a.id))[i]
        = ((fetch_articles_with_embeddings db).map (fun a => a.id))[j] := by
      simpa using heq
    exact hne (hndf.getElem_inj_iff.mp this)
  have habort := zeroshotLoop_abort classify
    (fetch_articles_with_embeddings db) db k hk hfail hok
  refine ⟨habort.1, ?_, ?_⟩
  · intro j hj hkj
    exact habort.2.1 _ (fun i hi => hids i j (by omega) hj (by omega))
  · intro i hi
    exact habort.2.2 i hi
      (fun j hj hne => hids j i (by omega) (by omega) hne)

/-- Witness for the amended C6: the failure on the first fetched article sets
the failure flag. -/
theorem C6_amended_witness :
    (zeroshot_topic_clustering z6Classify [z6a, z6b]).2 = true :=
  (C6_amended z6Classify [z6a, z6b] 0 (by decide) (by decide) (by decide)
    (fun i hi => absurd hi (by omega))).1

/-! ## C4 — the order of the selected top-k -/

theorem keyLtB_trans (s : List Nat) (a b c : Nat)
    (h1 : keyLtB s a b = true) (h2 : keyLtB s b c = true) :
    keyLtB s a c = true := by
  simp only [keyLtB, Bool.or_eq_true, Bool.and_eq_true,
    decide_eq_true_eq] at h1 h2 ⊢
  omega

theorem keyLtB_total (s : List Nat) (a b : Nat) (hne : a ≠ b) :
    keyLtB s a b = true ∨ keyLtB s b a = true := by
  simp only [keyLtB, Bool.or_eq_true, Bool.and_eq_true, decide_eq_true_eq]
  rcases Nat.lt_or_ge (s.getD a 0) (s.getD b 0) with h | h
  · exact Or.inl (Or.inl h)
  · rcases Nat.lt_or_ge (s.getD b 0) (s.getD a 0) with h2 | h2
    · exact Or.inr (Or.inl h2)
    · have heq : s.getD a 0 = s.getD b 0 := by omega
      rcases Nat.lt_or_ge a b with h3 | h3
      · exact Or.inl (Or.inr ⟨heq, h3⟩)
      · exact Or.inr (Or.inr ⟨heq.symm, by omega⟩)

theorem keyLtB_ne (s : List Nat) (a b : Nat) (h : keyLtB s a b = true) :
    a ≠ b := by
  rintro rfl
  simp [keyLtB] at h

theorem mem_insertByKey (s : List Nat) (i x : Nat) (l : List Nat) :
    x ∈ insertByKey s i l ↔ x = i ∨ x ∈ l := by
  induction l with
  | nil => simp [insertByKey]
  | cons j rest ih =>
    by_cases h : keyLtB s i j
    · simp [insertByKey, h]
    · simp [insertByKey, h, ih]
      tauto

theorem length_insertByKey (s : List Nat) (i : Nat) (l : List Nat) :
    (insertByKey s i l).length = l.length + 1 := by
  induction l with
  | nil => rfl
  | cons j rest ih =>
    by_cases h : keyLtB s i j <;> simp [insertByKey, h, ih]

theorem pairwise_insertByKey (s : List Nat) (i : Nat) (l : List Nat)
    (hl : l.Pairwise (fun a b => keyLtB s a b = true))
    (hne : ∀ x ∈ l, x ≠ i) :
    (insertByKey s i l).Pairwise (fun a b => keyLtB s a b = true) := by
  induction l with
  | nil => simp [insertByKey]
  | cons j rest ih =>
    rcases List.pairwise_cons.mp hl with ⟨hj, hrest⟩
    by_cases h : keyLtB s i j = true
    · rw [insertByKey, if_pos h]
      refine List.pairwise_cons.mpr ⟨?_, hl⟩
      intro x hx
      rcases List.mem_cons.mp hx with rfl | hxr
      · exact h
      · exact keyLtB_trans s i j x h (hj x hxr)
    · rw [insertByKey, if_neg h]
      refine List.pairwise_cons.mpr
        ⟨?_, ih hrest (fun x hx => hne x (List.mem_cons_of_mem j hx))⟩
      intro x hx
      rcases (mem_insertByKey s i x rest).mp hx with rfl | hxr
      · have hji : j ≠ x := fun he => (hne j (List.mem_cons_self j rest)) he
        rcases keyLtB_total s j x hji with hj2 | hi2
        · exact hj2
        · exact absurd hi2 h
      · exact hj x hxr

theorem argsortAsc_spec (s : List Nat) :
    (argsortAsc s).Pairwise (fun a b => keyLtB s a b = true) ∧
    (∀ x, x ∈ argsortAsc s ↔ x ∈ List.range s.length) ∧
    (argsortAsc s).length = s.length := by
  have main : ∀ l : List Nat, l.Nodup →
      ((l.foldr (fun i acc => insertByKey s i acc) []).Pairwise
          (fun a b => keyLtB s a b = true) ∧
        (∀ x, x ∈ l.foldr (fun i acc => insertByKey s i acc) [] ↔ x ∈ l) ∧
        (l.foldr (fun i acc => insertByKey s i acc) []).length
          = l.length) := by
    intro l hnd
    induction l with
    | nil => exact ⟨List.Pairwise.nil, by simp, rfl⟩
    | cons i rest ih =>
      obtain ⟨hirest, hndr⟩ := List.nodup_cons.mp hnd
      obtain ⟨hp, hm, hlen⟩ := ih hndr
      refine ⟨?_, ?_, ?_⟩
      · refine pairwise_insertByKey s i _ hp ?_
        intro x hx he
        exact hirest (he ▸ (hm x).mp hx)
      · intro x
        rw [List.foldr_cons, mem_insertByKey, hm x, List.mem_cons]
      · rw [List.foldr_cons, length_insertByKey, hlen, List.length_cons]
  obtain ⟨hp, hm, hlen⟩ := main (List.range s.length) (List.nodup_range _)
  exact ⟨hp, hm, by simpa using hlen⟩

/-- C4 counterexample: two articles of equal composite score with `top_k = 1`
— the code selects the LATER article (id 1), not the earlier one, because
`np.argsort` ascending places index 1 after index 0 among ties and the
trailing slice takes the END of that order. -/
theorem C4_counterexample :
    compositeScores [c4a, c4b] [[1], [1]] (9/10) = [2, 2] ∧
    (get_highlights [c4a, c4b] "sports" 1 (9/10)).map
      (List.map (fun a => a.id)) = some [1] := by
  exact ⟨by decide, by decide⟩

/-- C4 (amended): the selection step orders the chosen indices by composite
score descending, but ties are broken by REVERSE input order: because
`np.argsort(scores)[-top_k:][::-1]` reverses a stably ascending order, of two
equal-scored articles the one LATER in the input list is selected/ordered
first.  Formally, whenever index `i` precedes index `j` in the selected list,
either `j`'s score is strictly smaller, or the scores tie and `j < i`. -/
theorem C4_amended (s : List Nat) (k : Nat) :
    (topIndices s k).Pairwise (fun i j =>
      s.getD j 0 < s.getD i 0 ∨ (s.getD j 0 = s.getD i 0 ∧ j < i)) := by
  obtain ⟨hpair, hmem, hlen⟩ := argsortAsc_spec s
  have hslice : (sliceLast (argsortAsc s) k).Pairwise
      (fun a b => keyLtB s a b = true) := by
    rw [sliceLast]
    split
    · exact hpair
    · exact hpair.sublist (List.drop_sublist _ _)
  have hrev : (topIndices s k).Pairwise
      (fun a b => keyLtB s b a = true) := by
    rw [topIndices]
    exact (List.pairwise_reverse).mpr hslice
  refine hrev.imp ?_
  intro a b h
  simp only [keyLtB, Bool.or_eq_true, Bool.and_eq_true,
    decide_eq_true_eq] at h
  tauto

/-! ## C5 — exactly `min k n` articles become featured -/

/-- A batch whose members all carry embeddings extracts successfully, one
embedding per article. -/
theorem getEmbeddings_isSome (l : List Article)
    (h : ∀ a ∈ l, a.embedding.isSome = true) :
    ∃ es, getEmbeddings l = some es ∧ es.length = l.length := by
  induction l with
  | nil => exact ⟨[], rfl, rfl⟩
  | cons a rest ih =>
    obtain ⟨e, he⟩ := Option.isSome_iff_exists.mp
      (h a (List.mem_cons_self a rest))
    obtain ⟨es, hes, hlen⟩ := ih (fun b hb => h b (List.mem_cons_of_mem a hb))
    refine ⟨e :: es, ?_, by simp [hlen]⟩
    show (match a.embedding, getEmbeddings rest with
      | some e, some es => some (e :: es)
      | _, _ => none) = some (e :: es)
    rw [he, hes]

theorem length_compositeScores (articles : List Article)
    (embs : List (List ℚ)) (t : ℚ) :
    (compositeScores articles embs t).length = articles.length := by
  simp [compositeScores]

theorem length_topIndices (s : List Nat) (k : Nat) (hk : 1 ≤ k) :
    (topIndices s k).length = min k s.length := by
  obtain ⟨_, _, hlen⟩ := argsortAsc_spec s
  rw [topIndices, sliceLast, if_neg (by omega), List.length_reverse,
    List.length_drop, hlen]
  omega

theorem topIndices_mem (s : List Nat) (k i : Nat) (hi : i ∈ topIndices s k) :
    i < s.length := by
  rw [topIndices, List.mem_reverse] at hi
  have hmem : i ∈ argsortAsc s := by
    rw [sliceLast] at hi
    split at hi
    · exact hi
    · exact List.mem_of_mem_drop hi
  exact List.mem_range.mp (((argsortAsc_spec s).2.1 i).mp hmem)

theorem topIndices_nodup (s : List Nat) (k : Nat) :
    (topIndices s k).Nodup := by
  have hnd : (argsortAsc s).Nodup :=
    List.Pairwise.imp (fun h => keyLtB_ne s _ _ h) (argsortAsc_spec s).1
  have hslice : (sliceLast (argsortAsc s) k).Nodup := by
    rw [sliceLast]
    split
    · exact hnd
    · exact hnd.sublist (List.drop_sublist _ _)
  rw [topIndices, List.nodup_reverse]
  exact hslice

/-- The featured-flag write preserves the id column. -/
theorem articleIds_setFeaturedFirst (now : Nat) (db : List Article)
    (docId : Nat) :
    articleIds (setFeaturedFirst now db docId) = articleIds db := by
  induction db with
  | nil => rfl
  | cons b rest ih =>
    by_cases h : b.id = docId
    · simp [setFeaturedFirst, articleIds, h]
    · simp only [setFeaturedFirst, if_neg h]
      simpa [articleIds] using ih

/-- With distinct ids, the `update_one` featured write is the pointwise
conditional update. -/
theorem setFeaturedFirst_eq_map (now : Nat) (db : List Article)
    (docId : Nat) (hnd : (articleIds db).Nodup) :
    setFeaturedFirst now db docId = db.map (fun a =>
      if a.id = docId then
        { a with is_featured := true, featured_at := some now } else a) := by
  induction db with
  | nil => rfl
  | cons b rest ih =>
    have hnd2 : b.id ∉ rest.map (fun a => a.id) ∧
        (rest.map (fun a => a.id)).Nodup := by
      have h2 := hnd
      rw [articleIds, List.map_cons, List.nodup_cons] at h2
      exact h2
    obtain ⟨hb, hndr⟩ := hnd2
    by_cases h : b.id = docId
    · rw [setFeaturedFirst, if_pos h, List.map_cons, if_pos h]
      have hrest : rest.map (fun a =>
          if a.id = docId then
            { a with is_featured := true, featured_at := some now } else a)
          = rest.map id := by
        refine List.map_congr_left ?_
        intro a ha
        have hne : a.id ≠ docId := by
          intro he
          refine hb ?_
          rw [h, ← he]
          exact List.mem_map_of_mem (fun a => a.id) ha
        simp [hne]
      rw [hrest, List.map_id]
    · rw [setFeaturedFirst, if_neg h, List.map_cons, if_neg h, ih hndr]

/-- With distinct ids, the sequence of featured writes is the pointwise
conditional update by membership in the id list. -/
theorem markFeatured_eq_map (db : List Article) (ids : List Nat) (now : Nat)
    (hnd : (articleIds db).Nodup) :
    markFeatured db ids now = db.map (fun a =>
      if a.id ∈ ids then
        { a with is_featured := true, featured_at := some now } else a) := by
  induction ids generalizing db with
  | nil =>
    rw [markFeatured, List.foldl_nil]
    have : db.map (fun a =>
        if a.id ∈ ([] : List Nat) then
          { a with is_featured := true, featured_at := some now } else a)
        = db.map id := List.map_congr_left (fun a _ => by simp)
    rw [this, List.map_id]
  | cons i rest ih =>
    have hstep : markFeatured db (i :: rest) now
        = markFeatured (setFeaturedFirst now db i) rest now := rfl
    rw [hstep, ih _ (by rw [articleIds_setFeaturedFirst]; exact hnd),
      setFeaturedFirst_eq_map now db i hnd, List.map_map]
    refine List.map_congr_left ?_
    intro a _
    by_cases h : a.id = i
    · by_cases h2 : a.id ∈ rest <;>
        simp [Function.comp, h, h2, List.mem_cons]
    · by_cases h2 : a.id ∈ rest <;>
        simp [Function.comp, h, h2, List.mem_cons]

/-- Counting members of a duplicate-free list that fall in a duplicate-free
subset yields the subset's size. -/
theorem countP_mem_of_nodup (l sub : List Nat) (hl : l.Nodup)
    (hsub : ∀ i ∈ sub, i ∈ l) (hs : sub.Nodup) :
    l.countP (fun i => decide (i ∈ sub)) = sub.length := by
  rw [List.countP_eq_length_filter]
  have hperm : (l.filter (fun i => decide (i ∈ sub))).Perm sub := by
    rw [List.perm_ext_iff_of_nodup (hl.filter _) hs]
    intro a
    rw [List.mem_filter]
    constructor
    · intro h
      exact of_decide_eq_true h.2
    · intro h
      exact ⟨hsub a h, decide_eq_true h⟩
  exact hperm.length_eq

/-- The category reset preserves the id column. -/
theorem articleIds_resetFeatured (db : List Article) (cat : String) :
    articleIds (resetFeatured db cat) = articleIds db := by
  rw [articleIds, resetFeatured, List.map_map, articleIds]
  refine List.map_congr_left ?_
  intro a _
  by_cases h : a.predicted_topic == some cat <;> simp [Function.comp, h]

/-- The category reset commutes with the category filter and rewrites each
category member's featured flag to false. -/
theorem filter_resetFeatured (db : List Article) (cat : String) :
    (resetFeatured db cat).filter
        (fun b => b.predicted_topic == some cat)
      = (db.filter (fun b => b.predicted_topic == some cat)).map
          (fun a => { a with is_featured := false }) := by
  rw [resetFeatured, List.filter_map]
  have hp : ((fun b => b.predicted_topic == some cat) ∘ (fun a : Article =>
      if a.predicted_topic == some cat then
        { a with is_featured := false } else a))
      = (fun b : Article => b.predicted_topic == some cat) := by
    funext a
    by_cases h : a.predicted_topic == some cat <;> simp [Function.comp, h]
  rw [hp]
  refine List.map_congr_left ?_
  intro a ha
  rw [if_pos (List.mem_filter.mp ha).2]

/-- Success and shape of `get_highlights` when every category article has an
embedding: it returns `min k n` category articles (for `k ≥ 1`), with
distinct ids whenever the category's ids are distinct. -/
theorem get_highlights_spec (db : List Article) (cat : String) (k : Nat)
    (t : ℚ)
    (hemb : ∀ a ∈ db.filter (fun b => b.predicted_topic == some cat),
      a.embedding.isSome = true) :
    ∃ hl, get_highlights db cat k t = some hl ∧
      (∀ a ∈ hl, a ∈ db.filter (fun b => b.predicted_topic == some cat)) ∧
      (1 ≤ k → hl.length
        = min k (db.filter (fun b => b.predicted_topic == some cat)).length) ∧
      ((articleIds (db.filter
          (fun b => b.predicted_topic == some cat))).Nodup →
        (articleIds hl).Nodup) := by
  by_cases hempty :
    (db.filter (fun b => b.predicted_topic == some cat)).isEmpty
  · refine ⟨[], ?_, by simp, ?_, by simp [articleIds]⟩
    · simp [get_highlights, hempty]
    · intro _
      rw [List.isEmpty_iff] at hempty
      simp [hempty]
  · obtain ⟨es, hes, heslen⟩ := getEmbeddings_isSome _ hemb
    refine ⟨(topIndices (compositeScores
        (db.filter (fun b => b.predicted_topic == some cat)) es t) k).map
        (fun i => (db.filter
          (fun b => b.predicted_topic == some cat)).getD i default),
      ?_, ?_, ?_, ?_⟩
    · simp [get_highlights, hempty, hes]
    · intro a ha
      rcases List.mem_map.mp ha with ⟨i, hi, rfl⟩
      have hilt : i < (db.filter
          (fun b => b.predicted_topic == some cat)).length := by
        have h2 := topIndices_mem _ _ _ hi
        rwa [length_compositeScores] at h2
      rw [List.getD_eq_getElem _ default hilt]
      exact List.getElem_mem hilt
    · intro hk
      rw [List.length_map, length_topIndices _ _ hk,
        length_compositeScores]
    · intro hnd
      rw [articleIds, List.map_map]
      refine List.Nodup.map_on ?_ (topIndices_nodup _ _)
      intro x hx y hy hxy
      have hxl : x < (db.filter
          (fun b => b.predicted_topic == some cat)).length := by
        have h2 := topIndices_mem _ _ _ hx
        rwa [length_compositeScores] at h2
      have hyl : y < (db.filter
          (fun b => b.predicted_topic == some cat)).length := by
        have h2 := topIndices_mem _ _ _ hy
        rwa [length_compositeScores] at h2
      simp only [Function.comp] at hxy
      rw [List.getD_eq_getElem _ _ hxl, List.getD_eq_getElem _ _ hyl] at hxy
      rw [articleIds] at hnd
      have hxl2 : x < ((db.filter
          (fun b => b.predicted_topic == some cat)).map
          (fun a => a.id)).length := by simpa using hxl
      have hyl2 : y < ((db.filter
          (fun b => b.predicted_topic == some cat)).map
          (fun a => a.id)).length := by simpa using hyl
      have hid : ((db.filter (fun b => b.predicted_topic == some cat)).map
            (fun a => a.id))[x]
          = ((db.filter (fun b => b.predicted_topic == some cat)).map
            (fun a => a.id))[y] := by
        simpa using hxy
      exact hnd.getElem_inj_iff.mp hid

/-- After the category reset, every article of the category is
unfeatured. -/
theorem resetFeatured_featured_false (db : List Article) (cat : String) :
    ∀ a ∈ resetFeatured db cat,
      a.predicted_topic == some cat → a.is_featured = false := by
  intro a ha hp
  rw [resetFeatured] at ha
  rcases List.mem_map.mp ha with ⟨b, hb, rfl⟩
  by_cases h : b.predicted_topic == some cat
  · simp [h]
  · rw [if_neg h] at hp ⊢
    exact absurd hp h

/-- C5 (confirmed for `k ≥ 1`): one run of the highlight update features
exactly `min k n` articles of the category, where `n` is the category's
size — in particular, all of them when the category has fewer than `k`
articles — and an empty category is a no-op that raises no error. -/
theorem C5_top_k_features (db : List Article) (cat : String) (now k : Nat)
    (hk : 1 ≤ k) (hnd : (articleIds db).Nodup)
    (hemb : ∀ a ∈ db,
      a.predicted_topic = some cat → a.embedding.isSome = true) :
    ∃ db2, update_featured_highlights db cat now k = some db2 ∧
      db2.countP (fun a => a.predicted_topic == some cat && a.is_featured)
        = min k
            (db.filter (fun a => a.predicted_topic == some cat)).length ∧
      ((db.filter (fun a => a.predicted_topic == some cat)).length = 0 →
        db2 = db) := by
  have hemb0 : ∀ a ∈ db.filter (fun b => b.predicted_topic == some cat),
      a.embedding.isSome = true := by
    intro a ha
    have hm := List.mem_filter.mp ha
    exact hemb a hm.1 (by simpa using hm.2)
  have hfilter := filter_resetFeatured db cat
  have hemb1 : ∀ a ∈ (resetFeatured db cat).filter
      (fun b => b.predicted_topic == some cat),
      a.embedding.isSome = true := by
    intro a ha
    rw [hfilter] at ha
    rcases List.mem_map.mp ha with ⟨b, hb, rfl⟩
    exact hemb0 b hb
  obtain ⟨hl, hgh, hmemhl, hlen, hndhl⟩ :=
    get_highlights_spec (resetFeatured db cat) cat k (9/10) hemb1
  have hn1 : ((resetFeatured db cat).filter
      (fun b => b.predicted_topic == some cat)).length
      = (db.filter (fun b => b.predicted_topic == some cat)).length := by
    rw [hfilter, List.length_map]
  have hnd0 : (articleIds (db.filter
      (fun b => b.predicted_topic == some cat))).Nodup := by
    rw [articleIds]
    exact List.Nodup.sublist
      (List.Sublist.map _ (List.filter_sublist db)) hnd
  have hnd1 : (articleIds ((resetFeatured db cat).filter
      (fun b => b.predicted_topic == some cat))).Nodup := by
    rw [hfilter, articleIds, List.map_map]
    have heq : (db.filter (fun b => b.predicted_topic == some cat)).map
        ((fun a => a.id) ∘ (fun a : Article => { a with is_featured := false }))
        = (db.filter (fun b => b.predicted_topic == some cat)).map
          (fun a => a.id) :=
      List.map_congr_left (fun a _ => rfl)
    rw [heq]
    rw [articleIds] at hnd0
    exact hnd0
  have hnddb1 : (articleIds (resetFeatured db cat)).Nodup := by
    rw [articleIds_resetFeatured]
    exact hnd
  have hupd : update_featured_highlights db cat now k
      = some (markFeatured (resetFeatured db cat)
          (hl.map (fun a => a.id)) now) := by
    simp only [update_featured_highlights, hgh]
  refine ⟨markFeatured (resetFeatured db cat) (hl.map (fun a => a.id)) now,
    hupd, ?_, ?_⟩
  · -- the featured count is the number of selected ids
    rw [markFeatured_eq_map _ _ _ hnddb1, List.countP_map]
    have hpt : (resetFeatured db cat).countP
        ((fun a => a.predicted_topic == some cat && a.is_featured) ∘
          (fun a => if a.id ∈ hl.map (fun a => a.id) then
            { a with is_featured := true, featured_at := some now } else a))
        = (resetFeatured db cat).countP
          (fun a => decide (a.id ∈ hl.map (fun a => a.id)) &&
            (a.predicted_topic == some cat)) := by
      refine List.countP_congr ?_
      intro a ha
      by_cases hid : a.id ∈ hl.map (fun a => a.id)
      · simp [Function.comp, hid, Bool.and_comm]
      · simp only [Function.comp, if_neg hid]
        by_cases hpa : a.predicted_topic == some cat
        · rw [resetFeatured_featured_false db cat a ha hpa]
          simp [hid, hpa]
        · simp [hid, hpa]
    rw [hpt, ← List.countP_filter]
    have hmapped : ((resetFeatured db cat).filter
          (fun b => b.predicted_topic == some cat)).countP
          (fun a => decide (a.id ∈ hl.map (fun a => a.id)))
        = (articleIds ((resetFeatured db cat).filter
            (fun b => b.predicted_topic == some cat))).countP
          (fun i => decide (i ∈ hl.map (fun a => a.id))) := by
      rw [articleIds, List.countP_map]
      rfl
    rw [hmapped, countP_mem_of_nodup _ _ hnd1 ?_ ?_, List.length_map,
      hlen hk, hn1]
    · intro i hi
      rcases List.mem_map.mp hi with ⟨a, ha, rfl⟩
      rw [articleIds]
      exact List.mem_map_of_mem _ (hmemhl a ha)
    · have h2 := hndhl hnd1
      rw [articleIds] at h2
      exact h2
  · -- empty category: reset, selection and writes are all no-ops
    intro hzero
    have hfil : db.filter (fun b => b.predicted_topic == some cat) = [] :=
      List.length_eq_zero.mp hzero
    have hdb1 : resetFeatured db cat = db := by
      rw [resetFeatured]
      have hcg : ∀ a ∈ db, (if a.predicted_topic == some cat then
          { a with is_featured := false } else a) = id a := by
        intro a ha
        rw [if_neg (by simpa using List.filter_eq_nil_iff.mp hfil a ha)]
        rfl
      rw [List.map_congr_left hcg, List.map_id]
    have hhl : hl = [] := by
      refine List.length_eq_zero.mp ?_
      rw [hlen hk, hn1, hzero]
      simp
    rw [hhl, hdb1]
    rfl

/-- Witness for C5 on a one-article category with `k = 5`. -/
theorem C5_top_k_features_witness :
    ∃ db2, update_featured_highlights [x1Art] "sports" 3 5 = some db2 ∧
      db2.countP (fun a =>
          a.predicted_topic == some "sports" && a.is_featured)
        = min 5 (([x1Art] : List Article).filter
            (fun a => a.predicted_topic == some "sports")).length ∧
      ((([x1Art] : List Article).filter
          (fun a => a.predicted_topic == some "sports")).length = 0 →
        db2 = [x1Art]) :=
  C5_top_k_features [x1Art] "sports" 3 5 (by decide) (by decide) (by decide)

/-! ## C2 — featured status is recomputed, never cumulative

Highlight selection reads only the `coreOf` fields of the database (never the
featured state), and the update rewrites only the featured state.  The lemmas
below make both facts precise; the claim follows. -/

theorem coreOf_eq_fields (a b : Article) (h : coreOf a = coreOf b) :
    a.id = b.id ∧ a.title = b.title ∧ a.text = b.text ∧
      a.predicted_topic = b.predicted_topic ∧ a.embedding = b.embedding := by
  simp only [coreOf, Prod.ext_iff] at h
  exact ⟨h.1, h.2.1, h.2.2.1, h.2.2.2.1, h.2.2.2.2.1⟩

/-- The category reset does not change the selection-relevant fields. -/
theorem coreMap_resetFeatured (db : List Article) (cat : String) :
    (resetFeatured db cat).map coreOf = db.map coreOf := by
  rw [resetFeatured, List.map_map]
  refine List.map_congr_left ?_
  intro a _
  by_cases h : a.predicted_topic == some cat <;> simp [Function.comp, h, coreOf]

/-- The featured write does not change the selection-relevant fields. -/
theorem coreMap_setFeaturedFirst (now : Nat) (db : List Article)
    (docId : Nat) :
    (setFeaturedFirst now db docId).map coreOf = db.map coreOf := by
  induction db with
  | nil => rfl
  | cons b rest ih =>
    by_cases h : b.id = docId
    · simp [setFeaturedFirst, h, coreOf]
    · simp only [setFeaturedFirst, if_neg h, List.map_cons]
      rw [ih]

/-- The sequence of featured writes does not change the selection-relevant
fields. -/
theorem coreMap_markFeatured (db : List Article) (ids : List Nat)
    (now : Nat) :
    (markFeatured db ids now).map coreOf = db.map coreOf := by
  induction ids generalizing db with
  | nil => rfl
  | cons i rest ih =>
    have hstep : markFeatured db (i :: rest) now
        = markFeatured (setFeaturedFirst now db i) rest now := rfl
    rw [hstep, ih, coreMap_setFeaturedFirst]

/-- Two databases that agree on selection-relevant fields have category
filters that also agree on them. -/
theorem filter_coreMap (db dbAlt : List Article) (cat : String)
    (h : db.map coreOf = dbAlt.map coreOf) :
    (db.filter (fun b => b.predicted_topic == some cat)).map coreOf
      = (dbAlt.filter (fun b => b.predicted_topic == some cat)).map coreOf := by
  induction db generalizing dbAlt with
  | nil =>
    cases dbAlt with
    | nil => rfl
    | cons b rest => simp at h
  | cons a rest ih =>
    cases dbAlt with
    | nil => simp at h
    | cons b restAlt =>
      simp only [List.map_cons, List.cons.injEq] at h
      obtain ⟨hab, hrest⟩ := h
      have hp : (a.predicted_topic == some cat)
          = (b.predicted_topic == some cat) := by
        rw [(coreOf_eq_fields a b hab).2.2.2.1]
      by_cases hpa : a.predicted_topic == some cat
      · rw [List.filter_cons_of_pos
            (p := fun b : Article => b.predicted_topic == some cat) hpa,
          List.filter_cons_of_pos
            (p := fun b : Article => b.predicted_topic == some cat)
            (by
              show (b.predicted_topic == some cat) = true
              rw [← hp]; exact hpa),
          List.map_cons, List.map_cons, ih restAlt hrest, hab]
      · rw [List.filter_cons_of_neg
            (p := fun b : Article => b.predicted_topic == some cat) hpa,
          List.filter_cons_of_neg
            (p := fun b : Article => b.predicted_topic == some cat)
            (by
              show ¬ (b.predicted_topic == some cat) = true
              rw [← hp]; exact hpa)]
        exact ih restAlt hrest

/-- Embedding extraction reads only selection-relevant fields. -/
theorem getEmbeddings_coreMap (l lAlt : List Article)
    (h : l.map coreOf = lAlt.map coreOf) :
    getEmbeddings l = getEmbeddings lAlt := by
  induction l generalizing lAlt with
  | nil =>
    cases lAlt with
    | nil => rfl
    | cons b rest => simp at h
  | cons a rest ih =>
    cases lAlt with
    | nil => simp at h
    | cons b restAlt =>
      simp only [List.map_cons, List.cons.injEq] at h
      obtain ⟨hab, hrest⟩ := h
      show (match a.embedding, getEmbeddings rest with
        | some e, some es => some (e :: es)
        | _, _ => none)
        = (match b.embedding, getEmbeddings restAlt with
          | some e, some es => some (e :: es)
          | _, _ => none)
      rw [(coreOf_eq_fields a b hab).2.2.2.2, ih restAlt hrest]

/-- Entry-wise: selection-relevant agreement transfers through `getD`. -/
theorem coreOf_getD (l lAlt : List Article) (i : Nat)
    (h : l.map coreOf = lAlt.map coreOf) :
    coreOf (l.getD i default) = coreOf (lAlt.getD i default) := by
  have hlen : l.length = lAlt.length := by
    have := congrArg List.length h
    simpa using this
  by_cases hi : i < l.length
  · have hiA : i < lAlt.length := by omega
    rw [List.getD_eq_getElem _ _ hi, List.getD_eq_getElem _ _ hiA]
    have h1 : i < (l.map coreOf).length := by simpa using hi
    have h2 : i < (lAlt.map coreOf).length := by simpa using hiA
    have h3 : (l.map coreOf)[i] = (lAlt.map coreOf)[i] :=
      List.getElem_of_eq h h1
    simpa using h3
  · rw [List.getD_eq_default _ _ (by omega),
      List.getD_eq_default _ _ (by omega)]

/-- The composite scores read only selection-relevant fields of the article
list. -/
theorem compositeScores_coreMap (l lAlt : List Article) (embs : List (List ℚ))
    (t : ℚ) (h : l.map coreOf = lAlt.map coreOf) :
    compositeScores l embs t = compositeScores lAlt embs t := by
  have hlen : l.length = lAlt.length := by
    have := congrArg List.length h
    simpa using this
  rw [compositeScores, compositeScores, hlen]
  refine List.map_congr_left ?_
  intro i _
  have hcore := coreOf_getD l lAlt i h
  have hfields := coreOf_eq_fields _ _ hcore
  rw [keywordBoost, keywordBoost, hfields.2.1, hfields.2.2.1]

/-- The ids selected by `get_highlights` depend only on selection-relevant
fields: the featured state never feeds back into selection. -/
theorem get_highlights_coreMap (db dbAlt : List Article) (cat : String)
    (k : Nat) (t : ℚ) (h : db.map coreOf = dbAlt.map coreOf) :
    (get_highlights db cat k t).map (List.map (fun a => a.id))
      = (get_highlights dbAlt cat k t).map (List.map (fun a => a.id)) := by
  have hfine := filter_coreMap db dbAlt cat h
  have hflen : (db.filter (fun b => b.predicted_topic == some cat)).length
      = (dbAlt.filter (fun b => b.predicted_topic == some cat)).length := by
    have := congrArg List.length hfine
    simpa using this
  have hfe : getEmbeddings (db.filter
        (fun b => b.predicted_topic == some cat))
      = getEmbeddings (dbAlt.filter
        (fun b => b.predicted_topic == some cat)) :=
    getEmbeddings_coreMap _ _ hfine
  by_cases hempty :
      (db.filter (fun b => b.predicted_topic == some cat)).isEmpty
  · have h0 : db.filter (fun b => b.predicted_topic == some cat) = [] :=
      List.isEmpty_iff.mp hempty
    have h0A : dbAlt.filter (fun b => b.predicted_topic == some cat)
        = [] := by
      refine List.length_eq_zero.mp ?_
      rw [← hflen, h0]
      rfl
    simp [get_highlights, h0, h0A]
  · have hempty2 : (db.filter
        (fun b => b.predicted_topic == some cat)).isEmpty = false := by
      rcases hB : (db.filter
          (fun b => b.predicted_topic == some cat)).isEmpty
      · exact hB
      · exact absurd hB hempty
    have hemptyA : (dbAlt.filter
        (fun b => b.predicted_topic == some cat)).isEmpty = false := by
      rcases hA : (dbAlt.filter
          (fun b => b.predicted_topic == some cat)).isEmpty
      · exact hA
      · exfalso
        have hnil := List.isEmpty_iff.mp hA
        have h0 : db.filter (fun b => b.predicted_topic == some cat)
            = [] := by
          refine List.length_eq_zero.mp ?_
          rw [hflen, hnil]
          rfl
        rw [h0] at hempty2
        simp at hempty2
    rcases hge : getEmbeddings (db.filter
        (fun b => b.predicted_topic == some cat)) with _ | es
    · rw [hge] at hfe
      simp [get_highlights, hempty2, hemptyA, hge, hfe.symm]
    · rw [hge] at hfe
      have hscores := compositeScores_coreMap
        (db.filter (fun b => b.predicted_topic == some cat))
        (dbAlt.filter (fun b => b.predicted_topic == some cat)) es t hfine
      have hL : get_highlights db cat k t = some (List.map
          (fun i => (db.filter
            (fun b => b.predicted_topic == some cat)).getD i default)
          (topIndices (compositeScores
            (db.filter (fun b => b.predicted_topic == some cat)) es t)
            k)) := by
        simp [get_highlights, hempty2, hge]
      have hR : get_highlights dbAlt cat k t = some (List.map
          (fun i => (dbAlt.filter
            (fun b => b.predicted_topic == some cat)).getD i default)
          (topIndices (compositeScores
            (dbAlt.filter (fun b => b.predicted_topic == some cat)) es t)
            k)) := by
        simp [get_highlights, hemptyA, hfe.symm]
      have hidmap : List.map (fun a => a.id) (List.map
          (fun i => (db.filter
            (fun b => b.predicted_topic == some cat)).getD i default)
          (topIndices (compositeScores
            (db.filter (fun b => b.predicted_topic == some cat)) es t) k))
          = List.map (fun a => a.id) (List.map
          (fun i => (dbAlt.filter
            (fun b => b.predicted_topic == some cat)).getD i default)
          (topIndices (compositeScores
            (dbAlt.filter (fun b => b.predicted_topic == some cat)) es t)
            k)) := by
        rw [List.map_map, List.map_map, ← hscores]
        refine List.map_congr_left ?_
        intro i _
        have hcore := coreOf_getD _ _ i hfine
        simpa [Function.comp] using (coreOf_eq_fields _ _ hcore).1
      rw [hL, hR, Option.map_some', Option.map_some', hidmap]

/-- Selection-relevant agreement transfers entry-wise through `getElem`. -/
theorem coreOf_getElem (l lAlt : List Article)
    (h : l.map coreOf = lAlt.map coreOf) (i : Nat) (h1 : i < l.length)
    (h2 : i < lAlt.length) : coreOf l[i] = coreOf lAlt[i] := by
  have e1 : i < (l.map coreOf).length := by simpa using h1
  have h3 := List.getElem_of_eq h e1
  simpa using h3

/-- One run of `update_featured_highlights`: it succeeds, rewrites only the
featured state, and afterwards an article is featured iff it was selected —
or lies outside the category and was featured before. -/
theorem update_flags_spec (db : List Article) (cat : String) (now k : Nat)
    (hnd : (articleIds db).Nodup)
    (hemb : ∀ a ∈ db,
      a.predicted_topic = some cat → a.embedding.isSome = true) :
    ∃ db2 hl, get_highlights (resetFeatured db cat) cat k (9/10) = some hl ∧
      update_featured_highlights db cat now k = some db2 ∧
      db2.map coreOf = db.map coreOf ∧
      (∀ i (hi : i < db.length) (hi2 : i < db2.length),
        db2[i].is_featured =
          (decide (db[i].id ∈ hl.map (fun a => a.id)) ||
            (!(db[i].predicted_topic == some cat) && db[i].is_featured))) := by
  have hemb0 : ∀ a ∈ db.filter (fun b => b.predicted_topic == some cat),
      a.embedding.isSome = true := by
    intro a ha
    have hm := List.mem_filter.mp ha
    exact hemb a hm.1 (by simpa using hm.2)
  have hfilter := filter_resetFeatured db cat
  have hemb1 : ∀ a ∈ (resetFeatured db cat).filter
      (fun b => b.predicted_topic == some cat),
      a.embedding.isSome = true := by
    intro a ha
    rw [hfilter] at ha
    rcases List.mem_map.mp ha with ⟨b, hb, rfl⟩
    exact hemb0 b hb
  obtain ⟨hl, hgh, hmemhl, hlen, hndhl⟩ :=
    get_highlights_spec (resetFeatured db cat) cat k (9/10) hemb1
  have hnddb1 : (articleIds (resetFeatured db cat)).Nodup := by
    rw [articleIds_resetFeatured]
    exact hnd
  have hupd : update_featured_highlights db cat now k
      = some (markFeatured (resetFeatured db cat)
          (hl.map (fun a => a.id)) now) := by
    simp only [update_featured_highlights, hgh]
  refine ⟨markFeatured (resetFeatured db cat) (hl.map (fun a => a.id)) now,
    hl, hgh, hupd, ?_, ?_⟩
  · rw [coreMap_markFeatured, coreMap_resetFeatured]
  · intro i hi hi2
    rw [List.getElem_of_eq (markFeatured_eq_map _ _ _ hnddb1) hi2]
    simp only [List.getElem_map, resetFeatured]
    by_cases hpa : db[i].predicted_topic == some cat <;>
      by_cases hmem : db[i].id ∈ hl.map (fun a => a.id) <;>
        simp [hpa, hmem]

/-- C2 (confirmed): featured status is fully recomputed per category per run
— two databases identical except for their featured state produce the same
category flags, so the previous flags never accumulate — and running the
update twice in a row on unchanged inputs yields the same featured set. -/
theorem C2_recompute_idempotent (db dbAlt : List Article) (cat : String)
    (now1 now2 now3 k : Nat)
    (hnd : (articleIds db).Nodup)
    (hemb : ∀ a ∈ db,
      a.predicted_topic = some cat → a.embedding.isSome = true)
    (hcore : db.map coreOf = dbAlt.map coreOf) :
    ∃ db2 db2Alt db3,
      update_featured_highlights db cat now1 k = some db2 ∧
      update_featured_highlights dbAlt cat now2 k = some db2Alt ∧
      (∀ i (h2 : i < db2.length) (h2A : i < db2Alt.length),
        db2[i].predicted_topic = some cat →
          db2[i].is_featured = db2Alt[i].is_featured) ∧
      update_featured_highlights db2 cat now3 k = some db3 ∧
      db3.map (fun a => a.is_featured) = db2.map (fun a => a.is_featured) := by
  have hids : articleIds db = articleIds dbAlt := by
    have h2 := congrArg (List.map (fun c :
        Nat × List Char × List Char × Option String × Option (List ℚ) ×
          Option Int × Option Nat => c.1)) hcore
    simpa [articleIds, List.map_map, Function.comp, coreOf] using h2
  have hembOf : ∀ dbB : List Article, db.map coreOf = dbB.map coreOf →
      ∀ a ∈ dbB, a.predicted_topic = some cat →
        a.embedding.isSome = true := by
    intro dbB hcb a ha htopic
    have hmem : coreOf a ∈ dbB.map coreOf := List.mem_map_of_mem _ ha
    rw [← hcb] at hmem
    rcases List.mem_map.mp hmem with ⟨b, hb, hcb2⟩
    have hf := coreOf_eq_fields b a hcb2
    rw [← hf.2.2.2.2]
    exact hemb b hb (by rw [hf.2.2.2.1]; exact htopic)
  have hndOf : ∀ dbB : List Article, db.map coreOf = dbB.map coreOf →
      (articleIds dbB).Nodup := by
    intro dbB hcb
    have h2 := congrArg (List.map (fun c :
        Nat × List Char × List Char × Option String × Option (List ℚ) ×
          Option Int × Option Nat => c.1)) hcb
    have h3 : articleIds db = articleIds dbB := by
      simpa [articleIds, List.map_map, Function.comp, coreOf] using h2
    rw [← h3]
    exact hnd
  have hlenOf : ∀ (l lAlt : List Article),
      l.map coreOf = lAlt.map coreOf → l.length = lAlt.length := by
    intro l lAlt hc
    have := congrArg List.length hc
    simpa using this
  obtain ⟨db2, hl1, hgh1, hupd1, hcore1, hflag1⟩ :=
    update_flags_spec db cat now1 k hnd hemb
  obtain ⟨db2Alt, hlA, hghA, hupdA, hcoreA, hflagA⟩ :=
    update_flags_spec dbAlt cat now2 k (hndOf dbAlt hcore)
      (hembOf dbAlt hcore)
  have hcore2 : db.map coreOf = db2.map coreOf := hcore1.symm
  obtain ⟨db3, hl2, hgh2, hupd2, hcore3, hflag2⟩ :=
    update_flags_spec db2 cat now3 k (hndOf db2 hcore2)
      (hembOf db2 hcore2)
  -- the selected ids agree across the three runs
  have hsel1A : hl1.map (fun a => a.id) = hlA.map (fun a => a.id) := by
    have h2 := get_highlights_coreMap (resetFeatured db cat)
      (resetFeatured dbAlt cat) cat k (9/10)
      (by rw [coreMap_resetFeatured, coreMap_resetFeatured]; exact hcore)
    rw [hgh1, hghA, Option.map_some', Option.map_some'] at h2
    exact Option.some.inj h2
  have hsel12 : hl1.map (fun a => a.id) = hl2.map (fun a => a.id) := by
    have h2 := get_highlights_coreMap (resetFeatured db cat)
      (resetFeatured db2 cat) cat k (9/10)
      (by rw [coreMap_resetFeatured, coreMap_resetFeatured]; exact hcore2)
    rw [hgh1, hgh2, Option.map_some', Option.map_some'] at h2
    exact Option.some.inj h2
  have hlen2 : db2.length = db.length := hlenOf db2 db hcore1
  have hlenA : db2Alt.length = dbAlt.length := hlenOf db2Alt dbAlt hcoreA
  have hlendbA : db.length = dbAlt.length := hlenOf db dbAlt hcore
  have hlen3 : db3.length = db2.length := hlenOf db3 db2 hcore3
  refine ⟨db2, db2Alt, db3, hupd1, hupdA, ?_, hupd2, ?_⟩
  · -- category flags agree with the alternative database's run
    intro i h2 h2A htopic
    have hidb : i < db.length := by omega
    have hidbA : i < dbAlt.length := by omega
    have hcdb : coreOf db[i] = coreOf dbAlt[i] :=
      coreOf_getElem db dbAlt hcore i hidb hidbA
    have hfdb := coreOf_eq_fields _ _ hcdb
    have hc2 : coreOf db2[i] = coreOf db[i] :=
      coreOf_getElem db2 db hcore1 i h2 hidb
    have hf2 := coreOf_eq_fields _ _ hc2
    have htopicdb : db[i].predicted_topic = some cat := by
      rw [← hf2.2.2.2.1]
      exact htopic
    have htopicdbA : dbAlt[i].predicted_topic = some cat := by
      rw [← hfdb.2.2.2.1]
      exact htopicdb
    rw [hflag1 i hidb h2, hflagA i hidbA h2A, ← hsel1A, ← hfdb.1,
      htopicdb, htopicdbA]
    simp
  · -- the second run reproduces the first run's featured column
    refine List.ext_getElem (by simp [hlen3]) ?_
    intro i hi3m hi2m
    have hi3 : i < db3.length := by simpa using hi3m
    have hi2 : i < db2.length := by simpa using hi2m
    have hidb : i < db.length := by omega
    simp only [List.getElem_map]
    rw [hflag2 i hi2 hi3, hflag1 i hidb hi2, ← hsel12]
    have hc2 : coreOf db2[i] = coreOf db[i] :=
      coreOf_getElem db2 db hcore1 i hi2 hidb
    have hf2 := coreOf_eq_fields _ _ hc2
    rw [hf2.1, hf2.2.2.2.1]
    by_cases hpa : db[i].predicted_topic == some cat <;>
      by_cases hmem : db[i].id ∈ hl1.map (fun a => a.id) <;>
        simp [hpa, hmem]

/-- Witness for C2: a one-article category carrying a stale featured flag
(`w2a`) and the same database without it (`w2b`). -/
theorem C2_recompute_idempotent_witness :
    ∃ db2 db2Alt db3,
      update_featured_highlights [w2a] "sports" 1 5 = some db2 ∧
      update_featured_highlights [w2b] "sports" 2 5 = some db2Alt ∧
      (∀ i (h2 : i < db2.length) (h2A : i < db2Alt.length),
        db2[i].predicted_topic = some "sports" →
          db2[i].is_featured = db2Alt[i].is_featured) ∧
      update_featured_highlights db2 "sports" 3 5 = some db3 ∧
      db3.map (fun a => a.is_featured)
        = db2.map (fun a => a.is_featured) :=
  C2_recompute_idempotent [w2a] [w2b] "sports" 1 2 3 5 (by decide)
    (by decide) rfl

/-! ## C8 — permutation invariance of duplicate clustering

The tie counterexample shows the general claim false.  The amended claim is
proved for cleanly separated batches: when the points split into groups with
all within-group distances strictly below the cutoff and all cross-group
distances at or above it, the merge loop returns exactly the groups — under
every input order — so permuted runs yield isomorphic partitions. -/

theorem list_sum_lt_mul (l : List ℚ) (c : ℚ) (hl : l ≠ [])
    (h : ∀ x ∈ l, x < c) : l.sum < c * l.length := by
  induction l with
  | nil => exact absurd rfl hl
  | cons a rest ih =>
    rcases rest with _ | ⟨b, rest2⟩
    · simpa using h a (by simp)
    · have hr := ih (by simp) (fun x hx => h x (List.mem_cons_of_mem a hx))
      have ha := h a (by simp)
      simp only [List.sum_cons, List.length_cons] at hr ⊢
      push_cast at hr ⊢
      linarith

theorem list_mul_le_sum (l : List ℚ) (c : ℚ) (h : ∀ x ∈ l, c ≤ x) :
    c * l.length ≤ l.sum := by
  induction l with
  | nil => simp
  | cons a rest ih =>
    have hr := ih (fun x hx => h x (List.mem_cons_of_mem a hx))
    have ha := h a (by simp)
    simp only [List.sum_cons, List.length_cons]
    push_cast
    linarith

/-- Average linkage of two nonempty clusters whose pairwise distances are all
below `c` is below `c`. -/
theorem linkDist_lt_of_all (d : Nat → Nat → ℚ) (c : ℚ) (A B : List Nat)
    (hA : A ≠ []) (hB : B ≠ [])
    (h : ∀ x ∈ A, ∀ y ∈ B, d x y < c) : linkDist d A B < c := by
  have hApos : (0:ℚ) < A.length := by
    exact_mod_cast List.length_pos.mpr hA
  have hBpos : (0:ℚ) < B.length := by
    exact_mod_cast List.length_pos.mpr hB
  rw [linkDist, div_lt_iff₀ (by positivity)]
  have houter := list_sum_lt_mul
    (A.map (fun a => (B.map (fun b => d a b)).sum)) (c * B.length)
    (by simpa using hA) ?_
  · rw [List.length_map] at houter
    calc (A.map (fun a => (B.map (fun b => d a b)).sum)).sum
        < c * B.length * A.length := houter
      _ = c * (A.length * B.length) := by ring
  · intro x hx
    rcases List.mem_map.mp hx with ⟨a, ha, rfl⟩
    have hinner := list_sum_lt_mul (B.map (fun b => d a b)) c
      (by simpa using hB) ?_
    · rw [List.length_map] at hinner
      exact hinner
    · intro y hy
      rcases List.mem_map.mp hy with ⟨b, hb, rfl⟩
      exact h a ha b hb

/-- Average linkage of two nonempty clusters whose pairwise distances are all
at least `c` is at least `c`. -/
theorem linkDist_ge_of_all (d : Nat → Nat → ℚ) (c : ℚ) (A B : List Nat)
    (hA : A ≠ []) (hB : B ≠ [])
    (h : ∀ x ∈ A, ∀ y ∈ B, c ≤ d x y) : c ≤ linkDist d A B := by
  have hApos : (0:ℚ) < A.length := by
    exact_mod_cast List.length_pos.mpr hA
  have hBpos : (0:ℚ) < B.length := by
    exact_mod_cast List.length_pos.mpr hB
  rw [linkDist, le_div_iff₀ (by positivity)]
  have houter := list_mul_le_sum
    (A.map (fun a => (B.map (fun b => d a b)).sum)) (c * B.length) ?_
  · rw [List.length_map] at houter
    calc c * (A.length * B.length)
        = c * B.length * A.length := by ring
      _ ≤ (A.map (fun a => (B.map (fun b => d a b)).sum)).sum := houter
  · intro x hx
    rcases List.mem_map.mp hx with ⟨a, ha, rfl⟩
    have hinner := list_mul_le_sum (B.map (fun b => d a b)) c ?_
    · rw [List.length_map] at hinner
      exact hinner
    · intro y hy
      rcases List.mem_map.mp hy with ⟨b, hb, rfl⟩
      exact h a ha b hb

/-- Erasing position `j` removes exactly that entry's contribution to a
count. -/
theorem countP_eraseIdx_add {α : Type} (p : α → Bool) (l : List α) (j : Nat)
    (hj : j < l.length) :
    (l.eraseIdx j).countP p + (if p l[j] then 1 else 0) = l.countP p := by
  induction l generalizing j with
  | nil => simp at hj
  | cons a rest ih =>
    rcases j with _ | j
    · simp [List.eraseIdx, List.countP_cons]
    · have hj2 : j < rest.length := by simpa using hj
      simp only [List.eraseIdx, List.countP_cons, List.getElem_cons_succ]
      rw [← ih j hj2]
      omega

/-- An entry at a position other than `j` survives erasing position `j`. -/
theorem getElem_mem_eraseIdx {α : Type} (l : List α) (q1 q2 : Nat)
    (h1 : q1 < l.length) (h2 : q2 < l.length) (hne : q1 ≠ q2) :
    l[q1] ∈ l.eraseIdx q2 := by
  have hlen : (l.eraseIdx q2).length = l.length - 1 := by
    rw [List.length_eraseIdx]
    simp [h2]
  rcases Nat.lt_or_ge q1 q2 with hlt | hge
  · have hq : q1 < (l.eraseIdx q2).length := by omega
    have heq : (l.eraseIdx q2)[q1] = l[q1] :=
      List.getElem_eraseIdx_of_lt l q2 q1 hq hlt
    rw [← heq]
    exact List.getElem_mem hq
  · have hgt : q2 < q1 := by omega
    have hq : q1 - 1 < (l.eraseIdx q2).length := by omega
    have hge2 : q2 ≤ q1 - 1 := by omega
    have heq : (l.eraseIdx q2)[q1 - 1] = l[q1] := by
      rw [List.getElem_eraseIdx_of_ge l q2 (q1 - 1) hq hge2]
      congr 1
      omega
    rw [← heq]
    exact List.getElem_mem hq

/-- A predicate counted exactly once holds at a unique position. -/
theorem countP_eq_one_unique {α : Type} (p : α → Bool) (l : List α)
    (h : l.countP p = 1) (q1 q2 : Nat) (h1 : q1 < l.length)
    (h2 : q2 < l.length) (hp1 : p l[q1] = true) (hp2 : p l[q2] = true) :
    q1 = q2 := by
  by_contra hne
  have hmem := getElem_mem_eraseIdx l q1 q2 h1 h2 hne
  have h0 : 0 < (l.eraseIdx q2).countP p :=
    List.countP_pos_iff.mpr ⟨l[q1], hmem, hp1⟩
  have hsum := countP_eraseIdx_add p l q2 h2
  rw [hp2] at hsum
  simp at hsum
  omega

theorem mem_pairsBelow (k : Nat) (pr : Nat × Nat) :
    pr ∈ pairsBelow k ↔ pr.1 < pr.2 ∧ pr.2 < k := by
  rcases pr with ⟨i, j⟩
  rw [pairsBelow, List.mem_flatMap]
  constructor
  · rintro ⟨i2, hi2, hmem⟩
    rcases List.mem_map.mp hmem with ⟨j2, hj2, heq⟩
    rcases List.mem_filter.mp hj2 with ⟨hj2r, hij⟩
    obtain ⟨rfl, rfl⟩ : i2 = i ∧ j2 = j := by
      constructor <;> injection heq
    exact ⟨by simpa using hij, List.mem_range.mp hj2r⟩
  · rintro ⟨hij, hjk⟩
    refine ⟨i, List.mem_range.mpr (by omega), ?_⟩
    refine List.mem_map.mpr ⟨j, ?_, rfl⟩
    exact List.mem_filter.mpr ⟨List.mem_range.mpr hjk, by simpa using hij⟩

theorem pairsBelow_eq_nil (k : Nat) (hk : k ≤ 1) : pairsBelow k = [] := by
  rcases k with _ | k
  · rfl
  · rcases k with _ | k
    · rfl
    · omega

/-- The closest-pair scan, started from a candidate, returns a position pair
of minimal linkage distance. -/
theorem minStep_go (d : Nat → Nat → ℚ) (cs : List (List Nat))
    (l : List (Nat × Nat)) (x0 : Nat × Nat) :
    ∃ x, l.foldl (minStep d cs)
        (some (x0, linkDist d (cs.getD x0.1 []) (cs.getD x0.2 [])))
      = some (x, linkDist d (cs.getD x.1 []) (cs.getD x.2 [])) ∧
      (x = x0 ∨ x ∈ l) ∧
      linkDist d (cs.getD x.1 []) (cs.getD x.2 [])
        ≤ linkDist d (cs.getD x0.1 []) (cs.getD x0.2 []) ∧
      ∀ y ∈ l, linkDist d (cs.getD x.1 []) (cs.getD x.2 [])
        ≤ linkDist d (cs.getD y.1 []) (cs.getD y.2 []) := by
  induction l generalizing x0 with
  | nil => exact ⟨x0, rfl, Or.inl rfl, le_refl _, by simp⟩
  | cons a rest ih =>
    rw [List.foldl_cons]
    by_cases h : linkDist d (cs.getD a.1 []) (cs.getD a.2 [])
        < linkDist d (cs.getD x0.1 []) (cs.getD x0.2 [])
    · have hstep : minStep d cs
          (some (x0, linkDist d (cs.getD x0.1 []) (cs.getD x0.2 []))) a
          = some (a, linkDist d (cs.getD a.1 []) (cs.getD a.2 [])) := by
        show (if linkDist d (cs.getD a.1 []) (cs.getD a.2 [])
            < linkDist d (cs.getD x0.1 []) (cs.getD x0.2 [])
          then some (a, linkDist d (cs.getD a.1 []) (cs.getD a.2 []))
          else some (x0,
            linkDist d (cs.getD x0.1 []) (cs.getD x0.2 []))) = _
        rw [if_pos h]
      rw [hstep]
      obtain ⟨x, hfold, hmem, hle, hall⟩ := ih a
      refine ⟨x, hfold, ?_, ?_, ?_⟩
      · rcases hmem with rfl | hx
        · exact Or.inr (by simp)
        · exact Or.inr (List.mem_cons_of_mem a hx)
      · exact le_of_lt (lt_of_le_of_lt hle h)
      · intro y hy
        rcases List.mem_cons.mp hy with rfl | hyr
        · exact hle
        · exact hall y hyr
    · have hstep : minStep d cs
          (some (x0, linkDist d (cs.getD x0.1 []) (cs.getD x0.2 []))) a
          = some (x0, linkDist d (cs.getD x0.1 []) (cs.getD x0.2 [])) := by
        show (if linkDist d (cs.getD a.1 []) (cs.getD a.2 [])
            < linkDist d (cs.getD x0.1 []) (cs.getD x0.2 [])
          then some (a, linkDist d (cs.getD a.1 []) (cs.getD a.2 []))
          else some (x0,
            linkDist d (cs.getD x0.1 []) (cs.getD x0.2 []))) = _
        rw [if_neg h]
      rw [hstep]
      obtain ⟨x, hfold, hmem, hle, hall⟩ := ih x0
      refine ⟨x, hfold, ?_, hle, ?_⟩
      · rcases hmem with rfl | hx
        · exact Or.inl rfl
        · exact Or.inr (List.mem_cons_of_mem a hx)
      · intro y hy
        rcases List.mem_cons.mp hy with rfl | hyr
        · exact le_trans hle (le_of_not_lt h)
        · exact hall y hyr

/-- On a state with at least two clusters, `minLinkPair` returns a pair of
positions achieving the minimal average-linkage distance. -/
theorem minLinkPair_spec (d : Nat → Nat → ℚ) (cs : List (List Nat))
    (hlen : 2 ≤ cs.length) :
    ∃ pr, minLinkPair d cs
        = some (pr, linkDist d (cs.getD pr.1 []) (cs.getD pr.2 []))
      ∧ pr ∈ pairsBelow cs.length
      ∧ ∀ q ∈ pairsBelow cs.length,
          linkDist d (cs.getD pr.1 []) (cs.getD pr.2 [])
            ≤ linkDist d (cs.getD q.1 []) (cs.getD q.2 []) := by
  have hmem01 : ((0, 1) : Nat × Nat) ∈ pairsBelow cs.length :=
    (mem_pairsBelow cs.length (0, 1)).mpr ⟨by omega, by omega⟩
  rw [minLinkPair]
  rcases hpl : pairsBelow cs.length with _ | ⟨p0, rest⟩
  · rw [hpl] at hmem01
    cases hmem01
  · rw [List.foldl_cons]
    have hstep : minStep d cs none p0
        = some (p0, linkDist d (cs.getD p0.1 []) (cs.getD p0.2 [])) := rfl
    rw [hstep]
    obtain ⟨x, hfold, hmem, hle, hall⟩ := minStep_go d cs rest p0
    refine ⟨x, hfold, ?_, ?_⟩
    · rcases hmem with rfl | hx
      · simp
      · exact List.mem_cons_of_mem p0 hx
    · intro q hq
      rcases List.mem_cons.mp hq with rfl | hqr
      · exact hle
      · exact hall q hqr

/-- C8 counterexample: three unit vectors with a TIED pair of distances
(`d(A,B) = d(B,C) = 2/17 < 0.15`, `d(A,C) = 128/289 ≥ 0.15`).  On the input
order `[A, B, C]` the tie-break merges `{A, B}` and stops (the labels group
articles 0 and 1); on the permuted order `[C, B, A]` it merges `{C, B}`
instead, so articles A and B — now at positions 2 and 1 — receive different
labels.  The partitions `{A,B},{C}` and `{B,C},{A}` are not isomorphic, so
clustering is NOT invariant under input permutation. -/
theorem C8_counterexample :
    perform_duplicate_clustering [e8A, e8B, e8C] (85/100) = .ok [1, 1, 0] ∧
    perform_duplicate_clustering [e8C, e8B, e8A] (85/100) = .ok [1, 1, 0] ∧
    dotQ [1, 0] [1, 0] = 1 ∧
    dotQ [15/17, 8/17] [15/17, 8/17] = 1 ∧
    dotQ [161/289, 240/289] [161/289, 240/289] = 1 := by
  exact ⟨rfl, rfl, by decide, by decide, by decide⟩

/-- Merging two same-group clusters preserves the loop invariant. -/
theorem inv_mergeAt (n : Nat) (g : Nat → Nat) (cs : List (List Nat))
    (i j : Nat) (hij : i < j) (hj : j < cs.length)
    (hinv : InvState n g cs)
    (hsame : ∀ x ∈ cs.getD i [], ∀ y ∈ cs.getD j [], g x = g y) :
    InvState n g (mergeAt cs i j) := by
  obtain ⟨hne, hrange, hpure, hcount⟩ := hinv
  have hi : i < cs.length := by omega
  have hmemi : cs.getD i [] ∈ cs := by
    rw [List.getD_eq_getElem _ _ hi]
    exact List.getElem_mem hi
  have hmemj : cs.getD j [] ∈ cs := by
    rw [List.getD_eq_getElem _ _ hj]
    exact List.getElem_mem hj
  have hsub : ∀ cl ∈ (cs.eraseIdx j).eraseIdx i, cl ∈ cs := by
    intro cl hcl
    exact (List.eraseIdx_sublist cs j).mem
      ((List.eraseIdx_sublist (cs.eraseIdx j) i).mem hcl)
  refine ⟨?_, ?_, ?_, ?_⟩
  · intro cl hcl
    rw [mergeAt] at hcl
    rcases List.mem_append.mp hcl with h | h
    · exact hne cl (hsub cl h)
    · rcases List.mem_singleton.mp h with rfl
      intro hnil
      rw [List.append_eq_nil] at hnil
      exact hne _ hmemi hnil.1
  · intro cl hcl x hx
    rw [mergeAt] at hcl
    rcases List.mem_append.mp hcl with h | h
    · exact hrange cl (hsub cl h) x hx
    · rcases List.mem_singleton.mp h with rfl
      rcases List.mem_append.mp hx with h2 | h2
      · exact hrange _ hmemi x h2
      · exact hrange _ hmemj x h2
  · intro cl hcl x hx y hy
    rw [mergeAt] at hcl
    rcases List.mem_append.mp hcl with h | h
    · exact hpure cl (hsub cl h) x hx y hy
    · rcases List.mem_singleton.mp h with rfl
      rcases List.mem_append.mp hx with h2 | h2 <;>
        rcases List.mem_append.mp hy with h3 | h3
      · exact hpure _ hmemi x h2 y h3
      · exact hsame x h2 y h3
      · exact (hsame y h3 x h2).symm
      · exact hpure _ hmemj x h2 y h3
  · intro x hxn
    have hx1 := hcount x hxn
    -- the point lies in at most one of the two merged clusters
    have hnotboth : ¬ ((cs.getD i []).contains x = true ∧
        (cs.getD j []).contains x = true) := by
      rintro ⟨hci, hcj⟩
      have hci2 : (fun cl => cl.contains x) cs[i] = true := by
        rw [← List.getD_eq_getElem cs ([] : List Nat) hi]
        exact hci
      have hcj2 : (fun cl => cl.contains x) cs[j] = true := by
        rw [← List.getD_eq_getElem cs ([] : List Nat) hj]
        exact hcj
      have := countP_eq_one_unique _ cs hx1 i j hi hj hci2 hcj2
      omega
    have hlenj : (cs.eraseIdx j).length = cs.length - 1 := by
      rw [List.length_eraseIdx]
      simp [hj]
    have hi2 : i < (cs.eraseIdx j).length := by omega
    have e1 := countP_eraseIdx_add (fun cl => cl.contains x) cs j hj
    have e2 := countP_eraseIdx_add (fun cl => cl.contains x)
      (cs.eraseIdx j) i hi2
    have hgetij : (cs.eraseIdx j)[i] = cs[i] :=
      List.getElem_eraseIdx_of_lt cs j i hi2 hij
    rw [hgetij] at e2
    rw [mergeAt, List.countP_append]
    have hsng : ([cs.getD i [] ++ cs.getD j []].countP
        (fun cl => cl.contains x))
        = if (cs.getD i [] ++ cs.getD j []).contains x then 1 else 0 := by
      simp [List.countP_cons]
    rw [hsng]
    have hgi : cs[i] = cs.getD i [] :=
      (List.getD_eq_getElem cs ([] : List Nat) hi).symm
    have hgj : cs[j] = cs.getD j [] :=
      (List.getD_eq_getElem cs ([] : List Nat) hj).symm
    rw [hgi] at e2
    rw [hgj] at e1
    by_cases hci : (cs.getD i []).contains x = true <;>
      by_cases hcj : (cs.getD j []).contains x = true
    · exact absurd ⟨hci, hcj⟩ hnotboth
    · rw [if_pos hci] at e2
      rw [if_neg hcj] at e1
      have hmi : x ∈ cs.getD i [] := by simpa using hci
      have happ : (cs.getD i [] ++ cs.getD j []).contains x = true := by
        rw [List.elem_iff, List.mem_append]
        exact Or.inl hmi
      rw [if_pos happ]
      omega
    · rw [if_neg hci] at e2
      rw [if_pos hcj] at e1
      have hmj : x ∈ cs.getD j [] := by simpa using hcj
      have happ : (cs.getD i [] ++ cs.getD j []).contains x = true := by
        rw [List.elem_iff, List.mem_append]
        exact Or.inr hmj
      rw [if_pos happ]
      omega
    · rw [if_neg hci] at e2
      rw [if_neg hcj] at e1
      have hmi : x ∉ cs.getD i [] := by simpa using hci
      have hmj : x ∉ cs.getD j [] := by simpa using hcj
      have happ : ¬ ((cs.getD i [] ++ cs.getD j []).contains x = true) := by
        rw [List.elem_iff, List.mem_append]
        rintro (h | h)
        · exact hmi h
        · exact hmj h
      rw [if_neg happ]
      omega

/-- Under the invariant, a point lies in at most one cluster. -/
theorem clusters_disjoint (n : Nat) (g : Nat → Nat) (cs : List (List Nat))
    (hinv : InvState n g cs) (p q : Nat) (hp : p < cs.length)
    (hq : q < cs.length) (hpq : p ≠ q) (x : Nat) (hx : x ∈ cs.getD p [])
    (hy : x ∈ cs.getD q []) : False := by
  have hmemp : cs.getD p [] ∈ cs := by
    rw [List.getD_eq_getElem _ _ hp]
    exact List.getElem_mem hp
  have hxn : x < n := hinv.2.1 _ hmemp x hx
  have h1 : (fun cl => cl.contains x) cs[p] = true := by
    rw [← List.getD_eq_getElem cs ([] : List Nat) hp]
    simpa [List.elem_iff] using hx
  have h2 : (fun cl => cl.contains x) cs[q] = true := by
    rw [← List.getD_eq_getElem cs ([] : List Nat) hq]
    simpa [List.elem_iff] using hy
  exact hpq (countP_eq_one_unique _ cs (hinv.2.2.2 x hxn) p q hp hq h1 h2)

/-- If some member of one cluster shares its group with some member of
another cluster, the two clusters' average linkage is below the cutoff. -/
theorem cross_linkage_lt (n : Nat) (g : Nat → Nat) (d : Nat → Nat → ℚ)
    (c : ℚ)
    (hclean : ∀ i j, i < n → j < n → i ≠ j →
      (g i = g j → d i j < c) ∧ (g i ≠ g j → c ≤ d i j))
    (cs : List (List Nat)) (hinv : InvState n g cs) (p q : Nat)
    (hp : p < cs.length) (hq : q < cs.length) (hpq : p ≠ q)
    (x y : Nat) (hx : x ∈ cs.getD p []) (hy : y ∈ cs.getD q [])
    (hg : g x = g y) :
    linkDist d (cs.getD p []) (cs.getD q []) < c := by
  have hmemp : cs.getD p [] ∈ cs := by
    rw [List.getD_eq_getElem _ _ hp]
    exact List.getElem_mem hp
  have hmemq : cs.getD q [] ∈ cs := by
    rw [List.getD_eq_getElem _ _ hq]
    exact List.getElem_mem hq
  refine linkDist_lt_of_all d c _ _ (hinv.1 _ hmemp) (hinv.1 _ hmemq) ?_
  intro x2 hx2 y2 hy2
  have hgx2 : g x2 = g x := hinv.2.2.1 _ hmemp x2 hx2 x hx
  have hgy2 : g y2 = g y := hinv.2.2.1 _ hmemq y2 hy2 y hy
  have hxy2 : x2 ≠ y2 := by
    intro he
    exact clusters_disjoint n g cs hinv p q hp hq hpq x2 hx2 (he ▸ hy2)
  exact (hclean x2 y2 (hinv.2.1 _ hmemp x2 hx2) (hinv.2.1 _ hmemq y2 hy2)
    hxy2).1 (by rw [hgx2, hgy2, hg])

/-- If the groups of two clusters differ, their average linkage is at least
the cutoff. -/
theorem cross_linkage_ge (n : Nat) (g : Nat → Nat) (d : Nat → Nat → ℚ)
    (c : ℚ)
    (hclean : ∀ i j, i < n → j < n → i ≠ j →
      (g i = g j → d i j < c) ∧ (g i ≠ g j → c ≤ d i j))
    (cs : List (List Nat)) (hinv : InvState n g cs) (p q : Nat)
    (hp : p < cs.length) (hq : q < cs.length) (hpq : p ≠ q)
    (x y : Nat) (hx : x ∈ cs.getD p []) (hy : y ∈ cs.getD q [])
    (hg : g x ≠ g y) :
    c ≤ linkDist d (cs.getD p []) (cs.getD q []) := by
  have hmemp : cs.getD p [] ∈ cs := by
    rw [List.getD_eq_getElem _ _ hp]
    exact List.getElem_mem hp
  have hmemq : cs.getD q [] ∈ cs := by
    rw [List.getD_eq_getElem _ _ hq]
    exact List.getElem_mem hq
  refine linkDist_ge_of_all d c _ _ (hinv.1 _ hmemp) (hinv.1 _ hmemq) ?_
  intro x2 hx2 y2 hy2
  have hgx2 : g x2 = g x := hinv.2.2.1 _ hmemp x2 hx2 x hx
  have hgy2 : g y2 = g y := hinv.2.2.1 _ hmemq y2 hy2 y hy
  have hxy2 : x2 ≠ y2 := by
    intro he
    exact clusters_disjoint n g cs hinv p q hp hq hpq x2 hx2 (he ▸ hy2)
  exact (hclean x2 y2 (hinv.2.1 _ hmemp x2 hx2) (hinv.2.1 _ hmemq y2 hy2)
    hxy2).2 (by rw [hgx2, hgy2]; exact hg)

theorem length_mergeAt (cs : List (List Nat)) (i j : Nat) (hij : i < j)
    (hj : j < cs.length) : (mergeAt cs i j).length = cs.length - 1 := by
  have h1 : (cs.eraseIdx j).length = cs.length - 1 := by
    rw [List.length_eraseIdx]
    simp [hj]
  have hi2 : i < (cs.eraseIdx j).length := by omega
  have h2 : ((cs.eraseIdx j).eraseIdx i).length
      = (cs.eraseIdx j).length - 1 := by
    rw [List.length_eraseIdx]
    simp [hi2]
  rw [mergeAt, List.length_append, h2, h1]
  simp
  omega

/-- On a cleanly separated batch the merge loop preserves the invariant and,
once it stops, any two distinct clusters carry different groups. -/
theorem agglomLoop_clean (n : Nat) (g : Nat → Nat) (d : Nat → Nat → ℚ)
    (c : ℚ)
    (hclean : ∀ i j, i < n → j < n → i ≠ j →
      (g i = g j → d i j < c) ∧ (g i ≠ g j → c ≤ d i j)) :
    ∀ (fuel : Nat) (cs : List (List Nat)), InvState n g cs →
      cs.length ≤ fuel + 1 →
      InvState n g (agglomLoop d c fuel cs) ∧
      ∀ p q, p < (agglomLoop d c fuel cs).length →
        q < (agglomLoop d c fuel cs).length → p ≠ q →
        ∀ x ∈ (agglomLoop d c fuel cs).getD p [],
          ∀ y ∈ (agglomLoop d c fuel cs).getD q [], g x ≠ g y := by
  intro fuel
  induction fuel with
  | zero =>
    intro cs hinv hlen
    have e : agglomLoop d c 0 cs = cs := rfl
    rw [e]
    refine ⟨hinv, ?_⟩
    intro p q hp hq hpq x hx y hy
    exfalso
    omega
  | succ fuel ih =>
    intro cs hinv hlen
    by_cases hbig : 2 ≤ cs.length
    · obtain ⟨pr, hmp, hprmem, hmin⟩ := minLinkPair_spec d cs hbig
      obtain ⟨hpr12, hpr2len⟩ := (mem_pairsBelow _ _).mp hprmem
      have hpr1len : pr.1 < cs.length := by omega
      by_cases hvc : linkDist d (cs.getD pr.1 []) (cs.getD pr.2 []) < c
      · have hsame : ∀ x ∈ cs.getD pr.1 [], ∀ y ∈ cs.getD pr.2 [],
            g x = g y := by
          intro x hx y hy
          by_contra hgxy
          have hge := cross_linkage_ge n g d c hclean cs hinv pr.1 pr.2
            hpr1len hpr2len (by omega) x y hx hy hgxy
          exact absurd hvc (not_lt.mpr hge)
        have hinv2 := inv_mergeAt n g cs pr.1 pr.2 hpr12 hpr2len hinv hsame
        have hlen2 : (mergeAt cs pr.1 pr.2).length ≤ fuel + 1 := by
          rw [length_mergeAt cs pr.1 pr.2 hpr12 hpr2len]
          omega
        have e : agglomLoop d c (fuel + 1) cs
            = agglomLoop d c fuel (mergeAt cs pr.1 pr.2) := by
          simp only [agglomLoop, hmp]
          rw [if_pos hvc]
        rw [e]
        exact ih (mergeAt cs pr.1 pr.2) hinv2 hlen2
      · have e : agglomLoop d c (fuel + 1) cs = cs := by
          simp only [agglomLoop, hmp]
          rw [if_neg hvc]
        rw [e]
        refine ⟨hinv, ?_⟩
        intro p q hp hq hpq x hx y hy hgxy
        have key : ∀ a b, a < b → b < cs.length →
            (∃ u ∈ cs.getD a [], ∃ v ∈ cs.getD b [], g u = g v) →
            False := by
          rintro a b hab hb ⟨u, hu, v, hv, huv⟩
          have hlt := cross_linkage_lt n g d c hclean cs hinv a b
            (by omega) hb (by omega) u v hu hv huv
          have habmem : ((a, b) : Nat × Nat) ∈ pairsBelow cs.length :=
            (mem_pairsBelow _ _).mpr ⟨hab, hb⟩
          exact absurd (lt_of_le_of_lt (hmin (a, b) habmem) hlt) hvc
        rcases Nat.lt_or_ge p q with h | h
        · exact key p q h hq ⟨x, hx, y, hy, hgxy⟩
        · exact key q p (by omega) hp ⟨y, hy, x, hx, hgxy.symm⟩
    · have hmp : minLinkPair d cs = none := by
        rw [minLinkPair, pairsBelow_eq_nil _ (by omega)]
        rfl
      have e : agglomLoop d c (fuel + 1) cs = cs := by
        simp only [agglomLoop, hmp]
      rw [e]
      refine ⟨hinv, ?_⟩
      intro p q hp hq hpq x hx y hy
      exfalso
      omega

/-- The singleton configuration the loop starts from satisfies the
invariant. -/
theorem initial_InvState (n : Nat) (g : Nat → Nat) :
    InvState n g ((List.range n).map (fun i => [i])) := by
  refine ⟨?_, ?_, ?_, ?_⟩
  · intro cl hcl
    rcases List.mem_map.mp hcl with ⟨i, _, rfl⟩
    simp
  · intro cl hcl x hxcl
    rcases List.mem_map.mp hcl with ⟨i, hi, rfl⟩
    obtain rfl := List.mem_singleton.mp hxcl
    exact List.mem_range.mp hi
  · intro cl hcl x hx y hy
    rcases List.mem_map.mp hcl with ⟨i, hi, rfl⟩
    obtain rfl := List.mem_singleton.mp hx
    obtain rfl := List.mem_singleton.mp hy
    rfl
  · intro x hx
    rw [List.countP_map]
    have e : ((fun cl => List.contains cl x) ∘ fun i => [i])
        = fun i => decide (x = i) := by
      funext i
      simp [List.contains]
    rw [e]
    have e2 : (List.range n).countP (fun i => decide (x = i))
        = (List.range n).count x := by
      rw [List.count]
      apply List.countP_congr
      intro i hi
      simp
      exact eq_comm
    rw [e2]
    exact List.count_eq_one_of_mem (List.nodup_range n) (List.mem_range.mpr hx)

/-- Under the invariant each point's label is the position of the unique
cluster containing it. -/
theorem labelOf_spec (n : Nat) (g : Nat → Nat) (cs : List (List Nat))
    (hinv : InvState n g cs) (x : Nat) (hx : x < n) :
    labelOf cs x < cs.length ∧ x ∈ cs.getD (labelOf cs x) [] := by
  have hcount := hinv.2.2.2 x hx
  have hpos : 0 < cs.countP (fun cl => cl.contains x) := by omega
  obtain ⟨cl, hclmem, hcl⟩ := List.countP_pos_iff.mp hpos
  have hlt : cs.findIdx (fun cl2 => cl2.contains x) < cs.length :=
    List.findIdx_lt_length_of_exists ⟨cl, hclmem, hcl⟩
  refine ⟨hlt, ?_⟩
  have hfind : (fun cl2 => cl2.contains x)
      (cs.get ⟨cs.findIdx (fun cl2 => cl2.contains x), hlt⟩) = true :=
    List.findIdx_getElem
  rw [List.get_eq_getElem] at hfind
  rw [labelOf, List.getD_eq_getElem _ _ hlt]
  simpa [List.elem_iff] using hfind

theorem agglomerativeLabels_getD (n : Nat) (d : Nat → Nat → ℚ) (c : ℚ)
    (k : Nat) (hk : k < n) :
    (agglomerativeLabels n d c).getD k 0
      = labelOf (agglomLoop d c n ((List.range n).map (fun i => [i]))) k := by
  have e : agglomerativeLabels n d c
      = (List.range n).map (fun i =>
          labelOf (agglomLoop d c n
            ((List.range n).map (fun i2 => [i2]))) i) := rfl
  rw [e]
  have hk2 : k < ((List.range n).map (fun i =>
      labelOf (agglomLoop d c n
        ((List.range n).map (fun i2 => [i2]))) i)).length := by
    simp [hk]
  rw [List.getD_eq_getElem _ _ hk2, List.getElem_map]
  simp

/-- On a cleanly separated batch of `n` points the agglomerative labels
recover the groups exactly: two points get the same label iff they belong to
the same group. -/
theorem agglomerativeLabels_clean (n : Nat) (g : Nat → Nat)
    (d : Nat → Nat → ℚ) (c : ℚ)
    (hclean : ∀ i j, i < n → j < n → i ≠ j →
      (g i = g j → d i j < c) ∧ (g i ≠ g j → c ≤ d i j))
    (i j : Nat) (hi : i < n) (hj : j < n) :
    ((agglomerativeLabels n d c).getD i 0
      = (agglomerativeLabels n d c).getD j 0) ↔ g i = g j := by
  have hinv0 := initial_InvState n g
  have hlen0 : ((List.range n).map (fun i2 => [i2])).length ≤ n + 1 := by
    simp
  obtain ⟨hinvF, hsep⟩ := agglomLoop_clean n g d c hclean n
    ((List.range n).map (fun i2 => [i2])) hinv0 hlen0
  obtain ⟨hLi, hmi⟩ := labelOf_spec n g _ hinvF i hi
  obtain ⟨hLj, hmj⟩ := labelOf_spec n g _ hinvF j hj
  rw [agglomerativeLabels_getD n d c i hi, agglomerativeLabels_getD n d c j hj]
  constructor
  · intro heq
    set final := agglomLoop d c n ((List.range n).map (fun i2 => [i2]))
      with hfd
    have hclmem : final.getD (labelOf final j) [] ∈ final := by
      rw [List.getD_eq_getElem _ _ hLj]
      exact List.getElem_mem hLj
    refine hinvF.2.2.1 _ hclmem i ?_ j hmj
    rw [← heq]
    exact hmi
  · intro hg
    by_contra hne
    exact hsep _ _ hLi hLj hne i hmi j hmj hg

/-- C8 (amended): duplicate clustering is invariant under input permutation
on cleanly separated batches.  If the articles of the permuted run carry the
same embeddings as the original run rearranged by an injective index map σ,
and the pairwise cosine distances split cleanly against the merge cutoff
1 − threshold (below it within a group, at least it across groups), then both
runs succeed and produce isomorphic partitions: positions i and j share a
label in the permuted run iff their images σ i and σ j share a label in the
original run.  (On batches with cross-group ties at the cutoff the greedy
merge order can differ and the partitions need not be isomorphic.) -/
theorem C8_amended (arts artsP : List Article) (t : ℚ)
    (embs embsP : List (List ℚ)) (σ : Nat → Nat) (g : Nat → Nat)
    (hE : getEmbeddings arts = some embs)
    (hEP : getEmbeddings artsP = some embsP)
    (hn : 2 ≤ embs.length)
    (hlen : embsP.length = embs.length)
    (hσlt : ∀ i, i < embs.length → σ i < embs.length)
    (hσinj : ∀ i, i < embs.length → ∀ j, j < embs.length →
      σ i = σ j → i = j)
    (hperm : ∀ i, i < embs.length → embsP.getD i [] = embs.getD (σ i) [])
    (hclean : ∀ i, i < embs.length → ∀ j, j < embs.length → i ≠ j →
      (g i = g j → cosDistUnit embs i j < 1 - t) ∧
      (g i ≠ g j → 1 - t ≤ cosDistUnit embs i j)) :
    ∃ l lP,
      perform_duplicate_clustering arts t = .ok l ∧
      perform_duplicate_clustering artsP t = .ok lP ∧
      ∀ i, i < embs.length → ∀ j, j < embs.length →
        (lP.getD i 0 = lP.getD j 0 ↔ l.getD (σ i) 0 = l.getD (σ j) 0) := by
  refine ⟨agglomerativeLabels embs.length (cosDistUnit embs) (1 - t),
    agglomerativeLabels embsP.length (cosDistUnit embsP) (1 - t),
    ?_, ?_, ?_⟩
  · simp only [perform_duplicate_clustering, hE]
    rw [if_neg (by omega)]
  · simp only [perform_duplicate_clustering, hEP]
    rw [if_neg (by omega)]
  · intro i hi j hj
    have horig : ∀ a b, a < embs.length → b < embs.length →
        ((agglomerativeLabels embs.length (cosDistUnit embs) (1 - t)).getD a 0
          = (agglomerativeLabels embs.length
              (cosDistUnit embs) (1 - t)).getD b 0
          ↔ g a = g b) := by
      intro a b ha hb
      refine agglomerativeLabels_clean embs.length g (cosDistUnit embs)
        (1 - t) ?_ a b ha hb
      intro a2 b2 ha2 hb2 hne
      exact hclean a2 ha2 b2 hb2 hne
    have hcleanP : ∀ a b, a < embsP.length → b < embsP.length → a ≠ b →
        ((g (σ a) = g (σ b) → cosDistUnit embsP a b < 1 - t) ∧
         (g (σ a) ≠ g (σ b) → 1 - t ≤ cosDistUnit embsP a b)) := by
      intro a b ha hb hne
      have ha2 : a < embs.length := by omega
      have hb2 : b < embs.length := by omega
      have hd : cosDistUnit embsP a b = cosDistUnit embs (σ a) (σ b) := by
        rw [cosDistUnit, cosDistUnit, hperm a ha2, hperm b hb2]
      have hσne : σ a ≠ σ b := fun he => hne (hσinj a ha2 b hb2 he)
      rw [hd]
      exact hclean (σ a) (hσlt a ha2) (σ b) (hσlt b hb2) hσne
    have hpermLab := agglomerativeLabels_clean embsP.length
      (fun k => g (σ k)) (cosDistUnit embsP) (1 - t)
      (fun a b ha hb hne => hcleanP a b ha hb hne) i j (by omega) (by omega)
    rw [hpermLab]
    exact (horig (σ i) (σ j) (hσlt i hi) (hσlt j hj)).symm

/-- Witness: a separated batch of three articles (two aligned unit vectors
and one orthogonal) reversed by σ i = 2 − i satisfies every hypothesis of
the amended C8 theorem at the default threshold. -/
theorem C8_amended_witness :
    ∃ l lP,
      perform_duplicate_clustering [w8a, w8b, w8c] (85/100) = .ok l ∧
      perform_duplicate_clustering [w8c, w8b, w8a] (85/100) = .ok lP ∧
      ∀ i, i < ([[1, 0], [1, 0], [0, 1]] : List (List ℚ)).length →
        ∀ j, j < ([[1, 0], [1, 0], [0, 1]] : List (List ℚ)).length →
        (lP.getD i 0 = lP.getD j 0 ↔ l.getD (2 - i) 0 = l.getD (2 - j) 0) :=
  C8_amended [w8a, w8b, w8c] [w8c, w8b, w8a] (85/100)
    [[1, 0], [1, 0], [0, 1]] [[0, 1], [1, 0], [1, 0]]
    (fun i => 2 - i) (fun i => if i < 2 then 0 else 1)
    rfl rfl (by decide) (by decide) (by decide) (by decide) (by decide)
    (by decide)

end NewsRAG
